import Mathlib

/-- Characters the source treats as whitespace when collapsing runs. -/
def isSpaceJS (c : Char) : Bool :=
  c = ' ' || c = '\t' || c = '\n' || c = '\r' || c = Char.ofNat 11 || c = Char.ofNat 12

/-- Auxiliary scan: the flag records whether we are inside a whitespace run. -/
def collapseWSAux : Bool → List Char → List Char
  | _, [] => []
  | inRun, c :: rest =>
    if isSpaceJS c then
      if inRun then collapseWSAux true rest else ' ' :: collapseWSAux true rest
    else c :: collapseWSAux false rest

/-- Replace every run of whitespace by a single space (the /\s+/g → a space step). -/
def collapseWS (l : List Char) : List Char := collapseWSAux false l

def trimJS (l : List Char) : List Char :=
  ((l.dropWhile isSpaceJS).reverse.dropWhile isSpaceJS).reverse

/-! ## Image normalizer (preprocessImage in the source)

The canvas RGBA byte array is modelled as a list of pixels, one RGBA
quadruple per entry; pixel (x, y) sits at index y * width + x, matching the
index computation (y * canvas.width + x) * 4 of the source. -/

structure Pixel where
  r : Nat
  g : Nat
  b : Nat
  a : Nat
deriving DecidableEq, Repr

structure RasterImage where
  width : Nat
  height : Nat
  data : List Pixel
deriving DecidableEq, Repr

/-- ECMAScript ToUint8Clamp: clamp to [0, 255], rounding halves to even. -/
def roundHalfEven (q : ℚ) : ℤ :=
  let f := ⌊q⌋
  let r := q - f
  if r < 1/2 then f
  else if 1/2 < r then f + 1
  else if f % 2 = 0 then f else f + 1

def clampRound (q : ℚ) : ℕ :=
  if q ≤ 0 then 0 else if 255 ≤ q then 255 else (roundHalfEven q).toNat

/-- Grayscale per pixel: 0.299 * R + 0.587 * G + 0.114 * B, stored back into a
clamped byte of the canvas array. -/
def grayValue (p : Pixel) : ℕ :=
  clampRound (((299 : ℚ) / 1000) * p.r + ((587 : ℚ) / 1000) * p.g
    + ((114 : ℚ) / 1000) * p.b)

/-- Pass 1 of the source: set R, G and B of every pixel to its grayscale. -/
def grayscalePass (d : List Pixel) : List Pixel :=
  d.map (fun p => let g := grayValue p; ⟨g, g, g, p.a⟩)

/-- The 256-bin histogram, as the count of pixels whose (red) intensity is v;
histogram[Math.floor(data[i])]++ in the source. -/
def histOf (d : List Pixel) (v : ℕ) : ℕ :=
  d.countP (fun p => decide (p.r = v))

/-- sum = Σ i * histogram[i] over the 256 bins. -/
def histSum (hist : ℕ → ℕ) : ℕ :=
  (List.range 256).foldl (fun acc i => acc + i * hist i) 0

/-- Accumulator of the Otsu scan: wB, sumB, maxVariance, threshold, and a flag
recording that the `break` on wF = 0 has fired. -/
structure OtsuState where
  wB : ℕ
  sumB : ℕ
  maxVariance : ℚ
  threshold : ℕ
  broke : Bool
deriving Repr

/-- One iteration of the source's `for (let t = 0; t < 256; t++)` Otsu loop:
wB += histogram[t]; `continue` when wB = 0, `break` when wF = 0, otherwise
update sumB, the means and the variance, keeping the threshold on a strict
improvement of the maximal variance. -/
def otsuStep (hist : ℕ → ℕ) (sum total : ℕ) (s : OtsuState) (t : ℕ) : OtsuState :=
  if s.broke then s
  else if s.wB + hist t = 0 then { s with wB := s.wB + hist t }
  else if (total : ℤ) - ((s.wB + hist t : ℕ) : ℤ) = 0 then { s with broke := true }
  else
    let wB := s.wB + hist t
    let wF : ℤ := (total : ℤ) - (wB : ℤ)
    let sumB := s.sumB + t * hist t
    let mB : ℚ := (sumB : ℚ) / (wB : ℚ)
    let mF : ℚ := ((sum : ℚ) - (sumB : ℚ)) / (wF : ℚ)
    let variance : ℚ := (wB : ℚ) * (wF : ℚ) * (mB - mF) * (mB - mF)
    if s.maxVariance < variance then
      { wB := wB, sumB := sumB, maxVariance := variance, threshold := t, broke := false }
    else
      { s with wB := wB, sumB := sumB }

def otsuScan (hist : ℕ → ℕ) (sum total : ℕ) : OtsuState :=
  (List.range 256).foldl (otsuStep hist sum total) ⟨0, 0, 0, 0, false⟩

/-- The adaptive threshold selected by the source's Otsu loop. -/
def otsuThreshold (hist : ℕ → ℕ) (total : ℕ) : ℕ :=
  (otsuScan hist (histSum hist) total).threshold

/-- Pass 4 of the source: value = data[i] > threshold ? 255 : 0 on R, G, B. -/
def binarizePass (threshold : ℕ) (d : List Pixel) : List Pixel :=
  d.map (fun p => let v := if threshold < p.r then 255 else 0; ⟨v, v, v, p.a⟩)

/-- Ascending sort of the 3x3 neighborhood, as neighbors.sort((a, b) => a - b). -/
def insertAsc (x : ℕ) : List ℕ → List ℕ
  | [] => [x]
  | y :: ys => if y < x then y :: insertAsc x ys else x :: y :: ys

def sortAsc (l : List ℕ) : List ℕ := l.foldr insertAsc []

/-- The body of the median-filter double loop at one interior pixel (x, y):
skip pixels already 0 or 255, otherwise write the median of the 3x3
neighborhood read from the pre-pass snapshot `temp`. -/
def medianUpdate (w : ℕ) (temp d : List Pixel) (y x : ℕ) : List Pixel :=
  let idx := y * w + x
  let p := d.getD idx ⟨0, 0, 0, 0⟩
  if p.r = 0 ∨ p.r = 255 then d
  else
    let neighbors := sortAsc ((List.range 3).flatMap (fun j => (List.range 3).map
      (fun i => (temp.getD ((y + j - 1) * w + (x + i - 1)) ⟨0, 0, 0, 0⟩).r)))
    let median := neighbors.getD 4 0
    d.set idx ⟨median, median, median, p.a⟩

/-- Pass 5 of the source: the 3x3 median filter over interior pixels, run only
when width > 10 and height > 10, reading neighbors from a snapshot of the
data taken before the pass. -/
def medianPass (w h : ℕ) (d : List Pixel) : List Pixel :=
  if 10 < w ∧ 10 < h then
    (List.range h).foldl (fun acc y =>
      if 1 ≤ y ∧ y < h - 1 then
        (List.range w).foldl (fun acc2 x =>
          if 1 ≤ x ∧ x < w - 1 then medianUpdate w d acc2 y x else acc2) acc
      else acc) d
  else d

/-- The whole normalizer: grayscale, Otsu threshold, binarize, median filter. -/
def preprocessImage (img : RasterImage) : RasterImage :=
  let gray := grayscalePass img.data
  let hist := histOf gray
  let total := img.width * img.height
  let t := otsuThreshold hist total
  let bin := binarizePass t gray
  ⟨img.width, img.height, medianPass img.width img.height bin⟩


/-! ## Matcher combinators

The source's regular expressions are embedded as backtracking matchers: a
matcher sends an input to the list of (consumed, rest) splits it can produce,
in the engine's preference order (alternatives in written order, greedy
repetition longest first, lazy repetition shortest first), so the head of the
list is the match a JavaScript regex engine would pick at that position. -/

abbrev MRes := List (List Char × List Char)

abbrev Matcher := List Char → MRes

def mChar (p : Char → Bool) : List Char → MRes
  | [] => []
  | c :: rest => if p c then [([c], rest)] else []

def mEps : Matcher := fun s => [([], s)]

def mFail : Matcher := fun _ => []

def mSeq (a b : Matcher) : Matcher := fun s =>
  (a s).flatMap (fun cr => (b cr.2).map (fun dr => (cr.1 ++ dr.1, dr.2)))

def mSeqs : List Matcher → Matcher
  | [] => mEps
  | m :: ms => mSeq m (mSeqs ms)

def mAlt (a b : Matcher) : Matcher := fun s => a s ++ b s

def mAlts : List Matcher → Matcher
  | [] => mFail
  | m :: ms => mAlt m (mAlts ms)

/-- A greedy `?`: prefer the present alternative. -/
def mOpt (a : Matcher) : Matcher := mAlt a mEps

/-- A case-insensitive literal, one character at a time. -/
def mLits : List Char → Matcher
  | [] => mEps
  | c :: cs => mSeq (mChar (fun x => x.toLower = c.toLower)) (mLits cs)

def mStrCI (lit : String) : Matcher := mLits lit.data

/-- Greedy `*` over a character class: longest split first. -/
def mManyGreedy (p : Char → Bool) : List Char → MRes
  | [] => [([], [])]
  | c :: rest =>
    (if p c then (mManyGreedy p rest).map (fun cr => (c :: cr.1, cr.2)) else [])
      ++ [([], c :: rest)]

/-- Lazy `*?` over a character class: shortest split first. -/
def mManyLazy (p : Char → Bool) : List Char → MRes
  | [] => [([], [])]
  | c :: rest =>
    ([], c :: rest) ::
      (if p c then (mManyLazy p rest).map (fun cr => (c :: cr.1, cr.2)) else [])

def mPlusGreedy (p : Char → Bool) : Matcher := mSeq (mChar p) (mManyGreedy p)

def mPlusLazy (p : Char → Bool) : Matcher := mSeq (mChar p) (mManyLazy p)

def mRepExact (a : Matcher) : ℕ → Matcher
  | 0 => mEps
  | n + 1 => mSeq a (mRepExact a n)

def mRepAtMost (a : Matcher) : ℕ → Matcher
  | 0 => mEps
  | n + 1 => mAlt (mSeq a (mRepAtMost a n)) mEps

/-- Bounded repetition `{lo,hi}`, greedy. -/
def mRepRange (a : Matcher) (lo hi : ℕ) : Matcher :=
  mSeq (mRepExact a lo) (mRepAtMost a (hi - lo))

/-- A zero-width assertion on the rest of the input. -/
def mCheck (f : List Char → Bool) : Matcher := fun s => if f s then [([], s)] else []

/-- Soundness of a matcher: every split it offers is a split of the input, so
the consumed part is a literal prefix of the input at the match position. -/
def MSound (m : Matcher) : Prop := ∀ s cr, cr ∈ m s → cr.1 ++ cr.2 = s

/-- Run `pre`, the capture group and `post`, returning (capture, rest after the
whole match) candidates in preference order. -/
def capMatcher (pre cap post : Matcher) : Matcher := fun s =>
  (pre s).flatMap (fun pr =>
    (cap pr.2).flatMap (fun cp =>
      (post cp.2).map (fun ps => (cp.1, ps.2))))

/-- Scan positions left to right; the gate `ok` on the previous character
implements a leading word-boundary. The match found at the earliest position
wins, as for an unanchored JavaScript regex. -/
def scanAux (m : Matcher) (ok : Option Char → Bool) :
    Option Char → List Char → Option (List Char × List Char)
  | prev, [] => if ok prev then (m []).head? else none
  | prev, c :: rest =>
    match (if ok prev then (m (c :: rest)).head? else none) with
    | some r => some r
    | none => scanAux m ok (some c) rest

def isWordChar (c : Char) : Bool := c.isAlpha || c.isDigit || c = '_'

def okAlways : Option Char → Bool := fun _ => true

def okBoundary : Option Char → Bool
  | none => true
  | some c => !isWordChar c

def wordBoundaryAfter : List Char → Bool
  | [] => true
  | c :: _ => !isWordChar c

/-- First capture of a scan (group 1 of the pattern). -/
def capScan (pre cap post : Matcher) (s : List Char) : Option (List Char) :=
  (scanAux (capMatcher pre cap post) okAlways none s).map (fun r => r.1)

/-- All non-overlapping matches, left to right, as String.matchAll: restart
after each match (advancing one position on an empty match). The fuel starts
above the input length and each step strictly shortens the input, so it never
runs out. -/
def scanAllFuel (f : List Char → Option (List Char × List Char)) :
    ℕ → List Char → List (List Char)
  | 0, _ => []
  | _ + 1, [] =>
    (match f [] with
     | some r => [r.1]
     | none => [])
  | fuel + 1, c :: rest =>
    match f (c :: rest) with
    | some r =>
      if r.2.length < (c :: rest).length then r.1 :: scanAllFuel f fuel r.2
      else r.1 :: scanAllFuel f fuel rest
    | none => scanAllFuel f fuel rest

def scanAll (f : List Char → Option (List Char × List Char)) (s : List Char) :
    List (List Char) := scanAllFuel f (s.length + 1) s

/-! ## Character classes of the source's patterns -/

def sepClass (c : Char) : Bool := c = '/' || c = '.' || c = '-'

def colonSpaceClass (c : Char) : Bool := c = ':' || isSpaceJS c

def commaDotClass (c : Char) : Bool := c = ',' || c = '.'

def isDateKeywordChar (c : Char) : Bool :=
  c.isAlpha || c.isDigit || isSpaceJS c || c = ',' || c = '.' || c = '/' || c = '-'

def isMerchantNameChar (c : Char) : Bool :=
  c.isAlpha || c.isDigit || isSpaceJS c || c = '&' || c = ',' || c = '.'
    || c = Char.ofNat 39 || c = '-'

def mDigits (lo hi : ℕ) : Matcher := mRepRange (mChar Char.isDigit) lo hi

def mSpaces : Matcher := mManyGreedy isSpaceJS

/-! ## Date extraction (extractDate in the source) -/

/-- Pattern family 1: \b(\d{1,2}[/.-]\d{1,2}[/.-]\d{2,4})\b (the leading
boundary is enforced by the scan gate). -/
def datePat1 : Matcher :=
  mSeqs [mDigits 1 2, mChar sepClass, mDigits 1 2, mChar sepClass, mDigits 2 4,
    mCheck wordBoundaryAfter]

/-- The month-name alternation of pattern family 2, in source order. -/
def mMonth : Matcher :=
  mAlts [mSeq (mStrCI ("Jan")) (mOpt (mStrCI ("uary"))),
    mSeq (mStrCI ("Feb")) (mOpt (mStrCI ("ruary"))),
    mSeq (mStrCI ("Mar")) (mOpt (mStrCI ("ch"))),
    mSeq (mStrCI ("Apr")) (mOpt (mStrCI ("il"))),
    mStrCI ("May"),
    mSeq (mStrCI ("Jun")) (mOpt (mStrCI ("e"))),
    mSeq (mStrCI ("Jul")) (mOpt (mStrCI ("y"))),
    mSeq (mStrCI ("Aug")) (mOpt (mStrCI ("ust"))),
    mSeq (mStrCI ("Sep")) (mOpt (mStrCI ("tember"))),
    mSeq (mStrCI ("Oct")) (mOpt (mStrCI ("ober"))),
    mSeq (mStrCI ("Nov")) (mOpt (mStrCI ("ember"))),
    mSeq (mStrCI ("Dec")) (mOpt (mStrCI ("ember")))]

/-- Pattern family 2: month name, day with optional ordinal suffix, optional
comma, four-digit year. -/
def datePat2 : Matcher :=
  mSeqs [mMonth, mPlusGreedy isSpaceJS, mDigits 1 2,
    mOpt (mAlts [mStrCI ("st"), mStrCI ("nd"), mStrCI ("rd"), mStrCI ("th")]),
    mOpt (mChar (fun c => c = ',')), mPlusGreedy isSpaceJS, mDigits 4 4,
    mCheck wordBoundaryAfter]

/-- Pattern family 3: \b(\d{4}[/.-]\d{1,2}[/.-]\d{1,2})\b. -/
def datePat3 : Matcher :=
  mSeqs [mDigits 4 4, mChar sepClass, mDigits 1 2, mChar sepClass, mDigits 1 2,
    mCheck wordBoundaryAfter]

/-- Pattern family 4, label part: (?:Date|DATE|Invoice Date|Transaction
Date|Purchase Date)[:\s]+ with the /i flag. -/
def datePat4pre : Matcher :=
  mSeq (mAlts [mStrCI ("Date"), mStrCI ("DATE"), mStrCI ("Invoice Date"),
    mStrCI ("Transaction Date"), mStrCI ("Purchase Date")]) (mPlusGreedy colonSpaceClass)

/-- Pattern family 4, capture: letters, digits, whitespace, comma, period,
slash or hyphen, one or more, lazy. -/
def datePat4cap : Matcher := mPlusLazy isDateKeywordChar

/-- Pattern family 4, terminator: (?:\n|$|\s{2,}). -/
def datePat4post : Matcher :=
  mAlts [mChar (fun c => c = '\n'), mCheck List.isEmpty,
    mSeqs [mChar isSpaceJS, mChar isSpaceJS, mSpaces]]

/-- extractDate: collapse whitespace, then try the four families in order;
families 1-3 return the full match, family 4 returns the trimmed capture when
it holds a digit and one of / - . . -/
def extractDateL (text : List Char) : Option (List Char) :=
  let clean := trimJS (collapseWS text)
  match scanAux datePat1 okBoundary none clean with
  | some r => some r.1
  | none =>
    match scanAux datePat2 okBoundary none clean with
    | some r => some r.1
    | none =>
      match scanAux datePat3 okBoundary none clean with
      | some r => some r.1
      | none =>
        match scanAux (capMatcher datePat4pre datePat4cap datePat4post) okAlways none clean with
        | some r =>
          let dateMatch := trimJS r.1
          if dateMatch.any Char.isDigit && dateMatch.any sepClass then some dateMatch
          else none
        | none => none

def extractDate (s : String) : Option String :=
  (extractDateL s.data).map (fun l => String.mk l)

/-! ## Total extraction (extractTotal in the source) -/

def replaceFirstComma : List Char → List Char
  | [] => []
  | c :: cs => if c = ',' then '.' :: cs else c :: replaceFirstComma cs

def digitVal (c : Char) : ℕ := c.toNat - 48

def natOfDigits (l : List Char) : ℕ := l.foldl (fun n c => 10 * n + digitVal c) 0

/-- parseFloat on the captured decimal strings, represented exactly in
hundredths: every capture matches a digit run with an optional period and one
or two fractional digits, so its value times 100 is the natural number below;
parseFloat is exact on such strings, hence every comparison the source makes
on the parsed floats (positivity, the 100000 bound, the descending sort) is
mirrored exactly on these integers. -/
def parseCents (l : List Char) : ℕ :=
  let intPart := l.takeWhile Char.isDigit
  let rest := l.dropWhile Char.isDigit
  let frac :=
    (match rest with
     | '.' :: fs => fs.takeWhile Char.isDigit
     | _ => []).take 2
  natOfDigits intPart * 100 + natOfDigits frac * 10 ^ (2 - frac.length)

/-- The required fractional part (?:[,.]\d{1,2}). -/
def fracReq : Matcher := mSeq (mChar commaDotClass) (mDigits 1 2)

/-- Capture with required fraction, a digit run then [,.] then 1-2 digits. -/
def numFracReq : Matcher := mSeq (mPlusGreedy Char.isDigit) fracReq

/-- Capture with optional fraction, a digit run then optionally [,.] and 1-2 digits. -/
def numFracOpt : Matcher := mSeq (mPlusGreedy Char.isDigit) (mOpt fracReq)

/-- The high-specificity phrases of total pattern 1, in source order. -/
def totalPhrase1 : Matcher :=
  mAlts [mSeqs [mStrCI ("total"), mPlusGreedy isSpaceJS, mStrCI ("amount")],
    mSeqs [mStrCI ("grand"), mPlusGreedy isSpaceJS, mStrCI ("total")],
    mSeqs [mStrCI ("amount"), mPlusGreedy isSpaceJS, mStrCI ("due")],
    mSeqs [mStrCI ("balance"), mPlusGreedy isSpaceJS, mStrCI ("due")],
    mSeqs [mStrCI ("total"), mPlusGreedy isSpaceJS, mStrCI ("due")],
    mSeqs [mStrCI ("total"), mPlusGreedy isSpaceJS, mStrCI ("to"),
      mPlusGreedy isSpaceJS, mStrCI ("pay")]]

def totalPat1pre : Matcher :=
  mSeqs [totalPhrase1, mManyGreedy colonSpaceClass,
    mOpt (mChar (fun c => c = '$')), mSpaces]

def totalPat2pre : Matcher :=
  mSeqs [mAlts [mStrCI ("total"), mStrCI ("amount"), mStrCI ("due"), mStrCI ("balance"),
      mStrCI ("sum"), mStrCI ("charge")],
    mOpt (mAlts [mSeq mSpaces (mChar (fun c => c = ':')),
      mSeq mSpaces (mStrCI ("due")), mSeq mSpaces (mStrCI ("payment"))]),
    mSpaces, mOpt (mChar (fun c => c = '$')), mSpaces]

def totalPat3pre : Matcher := mSeq (mChar (fun c => c = '$')) mSpaces

def totalPat3post : Matcher :=
  mSeq mSpaces (mAlts [mStrCI ("total"), mStrCI ("amount"), mStrCI ("due")])

def totalPat4pre : Matcher := mSeq (mChar (fun c => c = '$')) mSpaces

/-- The phase-1 loop: each labeled pattern in turn; the first whose captured
number parses strictly positive wins, a comma becoming a period first. -/
def tryLabeledTotal : List (List Char → Option (List Char)) → List Char → Option (List Char)
  | [], _ => none
  | p :: ps, s =>
    match p s with
    | some cap =>
      let t := replaceFirstComma cap
      if 0 < parseCents t then some t else tryLabeledTotal ps s
    | none => tryLabeledTotal ps s

def labeledTotalPats : List (List Char → Option (List Char)) :=
  [capScan totalPat1pre numFracReq mEps,
   capScan totalPat2pre numFracOpt mEps,
   capScan totalPat3pre numFracOpt totalPat3post]

def labeledTotal (clean : List Char) : Option (List Char) :=
  tryLabeledTotal labeledTotalPats clean

/-- Stable insertion keeping earlier equal-key elements first (a descending
stable sort agrees with Array.prototype.sort with (a, b) => b.key - a.key). -/
def insertByDesc {α β : Type} [LinearOrder β] (key : α → β) (x : α) :
    List α → List α
  | [] => [x]
  | y :: ys => if key x < key y then y :: insertByDesc key x ys else x :: y :: ys

def sortByDesc {α β : Type} [LinearOrder β] (key : α → β) (l : List α) : List α :=
  l.foldr (insertByDesc key) []

/-- Phase 2 of extractTotal: every $-prefixed amount anywhere, positive ones
kept (values in hundredths), sorted descending, amounts at or above 100000
(that is, 10^7 hundredths) dropped, largest wins. -/
def fallbackAmounts (clean : List Char) : List (List Char × ℕ) :=
  ((scanAll (fun s => (capMatcher totalPat4pre numFracReq mEps s).head?) clean).map
    (fun cap => (replaceFirstComma cap, parseCents (replaceFirstComma cap)))).filter
    (fun a => 0 < a.2)

def fallbackTotal (clean : List Char) : Option (List Char) :=
  (((sortByDesc (fun a => a.2) (fallbackAmounts clean)).filter
    (fun a => a.2 < 10000000)).head?).map (fun a => a.1)

def extractTotalL (text : List Char) : Option (List Char) :=
  let clean := trimJS (collapseWS text)
  match labeledTotal clean with
  | some t => some t
  | none => fallbackTotal clean

def extractTotal (s : String) : Option String :=
  (extractTotalL s.data).map (fun l => String.mk l)

/-! ## Merchant extraction (extractMerchant in the source) -/

/-- text.split newline, trim each line, keep lines of length > 2. -/
def linesOf (text : List Char) : List (List Char) :=
  ((text.splitOn '\n').map trimJS).filter (fun l => 2 < l.length)

def merchantLabel1 : Matcher :=
  mAlts [mStrCI ("merchant"), mStrCI ("vendor"), mStrCI ("store"), mStrCI ("business"),
    mStrCI ("retailer"), mStrCI ("seller"), mStrCI ("company")]

def merchantLabel2 : Matcher :=
  mAlts [mStrCI ("invoice from"), mStrCI ("receipt from"), mStrCI ("sold by")]

def merchantCap : Matcher := mPlusGreedy isMerchantNameChar

def merchantLineMatch (lbl : Matcher) (line : List Char) : Option (List Char) :=
  capScan (mSeq lbl (mPlusGreedy colonSpaceClass)) merchantCap mEps line

/-- One labeled pattern over all lines, line order preserved; the captured
name must have length > 2 and is trimmed. -/
def firstLineCapture (lbl : Matcher) : List (List Char) → Option (List Char)
  | [] => none
  | l :: rest =>
    match merchantLineMatch lbl l with
    | some cap =>
      if 2 < cap.length then some (trimJS cap) else firstLineCapture lbl rest
    | none => firstLineCapture lbl rest

/-- Phase 1 of extractMerchant: pattern-major, the single-word labels over all
lines first, then the phrase labels over all lines. -/
def labeledMerchant (lines : List (List Char)) : Option (List Char) :=
  match firstLineCapture merchantLabel1 lines with
  | some r => some r
  | none => firstLineCapture merchantLabel2 lines

/-- The date filter of the header scan (no word boundaries). -/
def dateLikePat : Matcher :=
  mSeqs [mDigits 1 2, mChar sepClass, mDigits 1 2, mChar sepClass, mDigits 2 4]

/-- The currency filter \$\d+\.\d{2}. -/
def currencyLikePat : Matcher :=
  mSeqs [mChar (fun c => c = '$'), mPlusGreedy Char.isDigit,
    mChar (fun c => c = '.'), mDigits 2 2]

/-- The street-address filter, anchored at the line start. -/
def addressPat : Matcher :=
  mSeqs [mPlusGreedy Char.isDigit, mPlusGreedy isSpaceJS, mPlusGreedy Char.isAlpha,
    mPlusGreedy isSpaceJS,
    mAlts [mStrCI ("street"), mStrCI ("st"), mStrCI ("avenue"), mStrCI ("ave"),
      mStrCI ("road"), mStrCI ("rd"), mStrCI ("boulevard"), mStrCI ("blvd")]]

/-- The contact filter ^(?:tel|phone|fax|www|http), anchored. -/
def contactPat : Matcher :=
  mAlts [mStrCI ("tel"), mStrCI ("phone"), mStrCI ("fax"), mStrCI ("www"), mStrCI ("http")]

def hasMatch (m : Matcher) (l : List Char) : Bool :=
  (scanAux m okAlways none l).isSome

def matchesAtStart (m : Matcher) (l : List Char) : Bool :=
  !(m l).isEmpty

def isUpperAlpha (c : Char) : Bool := 'A' ≤ c && c ≤ 'Z'

def isLowerAlpha (c : Char) : Bool := 'a' ≤ c && c ≤ 'z'

/-- Title case test: an uppercase letter followed by a lowercase letter at the start. -/
def titleStart : List Char → Bool
  | c1 :: c2 :: _ => isUpperAlpha c1 && isLowerAlpha c2
  | _ => false

/-- A run of three or more digits somewhere in the line. -/
def hasDigitRun3 : List Char → Bool
  | c1 :: c2 :: c3 :: rest =>
    (c1.isDigit && c2.isDigit && c3.isDigit) || hasDigitRun3 (c2 :: c3 :: rest)
  | _ => false

/-- The header-scan score: +4 all-caps, +3 title case, +2 length > 7,
+1 length < 30, -3 for a 3+ digit run. -/
def merchantScore (line : List Char) : ℤ :=
  (if line.map Char.toUpper = line then 4 else 0) +
  (if titleStart line then 3 else 0) +
  (if 7 < line.length then 2 else 0) +
  (if line.length < 30 then 1 else 0) -
  (if hasDigitRun3 line then 3 else 0)

/-- The header-scan candidates: the first 6 lines, without date, currency,
address and contact lines and lines of length at most 3. -/
def merchantCandidates (lines : List (List Char)) : List (List Char) :=
  (lines.take 6).filter (fun line =>
    3 < line.length &&
    !hasMatch dateLikePat line &&
    !hasMatch currencyLikePat line &&
    !matchesAtStart addressPat line &&
    !matchesAtStart contactPat line)

def fallbackMerchant (lines : List (List Char)) : Option (List Char) :=
  (sortByDesc merchantScore (merchantCandidates lines)).head?

def extractMerchantL (text : List Char) : Option (List Char) :=
  let lines := linesOf text
  match labeledMerchant lines with
  | some r => some r
  | none => fallbackMerchant lines

def extractMerchant (s : String) : Option String :=
  (extractMerchantL s.data).map (fun l => String.mk l)

/-! ## The extraction record (BillData in the source) -/

structure BillData where
  fullText : String
  date : Option String
  total : Option String
  merchant : Option String
deriving DecidableEq, Repr

/-- The record built by processImage from the recognized text. -/
def extractFields (text : String) : BillData :=
  { fullText := text
    date := extractDate text
    total := extractTotal text
    merchant := extractMerchant text }

/-! ### Specification-side quantities of the Otsu scan

These follow the claim's formula: wB(t) and mB(t) are the cumulative pixel
count and mean intensity of the bins up to and including t, wF(t) and mF(t)
the count and mean of the remaining bins, and the between-class variance is
wB(t) * wF(t) * (mB(t) - mF(t))^2, with a division by a zero weight read as
zero (which makes the variance zero at a degenerate threshold). -/

def partW (hist : ℕ → ℕ) (n : ℕ) : ℕ := ∑ i ∈ Finset.range n, hist i

def partS (hist : ℕ → ℕ) (n : ℕ) : ℕ := ∑ i ∈ Finset.range n, i * hist i

def betweenVariance (hist : ℕ → ℕ) (total t : ℕ) : ℚ :=
  (partW hist (t + 1) : ℚ) * ((total : ℚ) - (partW hist (t + 1) : ℚ)) *
    ((partS hist (t + 1) : ℚ) / (partW hist (t + 1) : ℚ) -
      ((partS hist 256 : ℚ) - (partS hist (t + 1) : ℚ)) /
        ((total : ℚ) - (partW hist (t + 1) : ℚ))) *
    ((partS hist (t + 1) : ℚ) / (partW hist (t + 1) : ℚ) -
      ((partS hist 256 : ℚ) - (partS hist (t + 1) : ℚ)) /
        ((total : ℚ) - (partW hist (t + 1) : ℚ)))

/-- Invariant of the Otsu scan after the iterations t = 0, ..., n - 1. -/
def OtsuInv (hist : ℕ → ℕ) (total n : ℕ) (s : OtsuState) : Prop :=
  (s.broke = false → s.wB = partW hist n ∧ s.sumB = partS hist n) ∧
  (s.broke = true → partW hist n = total) ∧
  (∀ t, t < n → betweenVariance hist total t ≤ s.maxVariance) ∧
  (0 < n → betweenVariance hist total s.threshold = s.maxVariance ∧
    s.threshold < n ∧
    ∀ t, t < n → betweenVariance hist total t = s.maxVariance → s.threshold ≤ t) ∧
  (n = 0 → s.threshold = 0 ∧ s.maxVariance = 0 ∧ s.broke = false)

/-! ### Helper lemmas for the normalizer -/

lemma clampRound_le (q : ℚ) : clampRound q ≤ 255 := by
  unfold clampRound
  split
  · omega
  split
  · omega
  rename_i h0 h255
  have hq : q < 255 := lt_of_not_ge h255
  have hf : ⌊q⌋ < (255 : ℤ) := Int.floor_lt.mpr (by exact_mod_cast hq)
  have hb : roundHalfEven q ≤ 255 := by
    simp only [roundHalfEven]
    split
    · omega
    split
    · omega
    split <;> omega
  omega

lemma grayValue_le (p : Pixel) : grayValue p ≤ 255 := clampRound_le _

lemma grayscalePass_r_lt (d : List Pixel) : ∀ p ∈ grayscalePass d, p.r < 256 := by
  intro p hp
  simp only [grayscalePass, List.mem_map] at hp
  obtain ⟨q, _, rfl⟩ := hp
  have := grayValue_le q
  show grayValue q < 256
  omega

lemma partW_histOf (d : List Pixel) (hvals : ∀ p ∈ d, p.r < 256) :
    partW (histOf d) 256 = d.length := by
  induction d with
  | nil => simp [partW, histOf]
  | cons p rest ih =>
    have hp := hvals p (List.mem_cons_self p rest)
    have hrest : ∀ q ∈ rest, q.r < 256 := fun q hq => hvals q (List.mem_cons_of_mem _ hq)
    have hcount : ∀ v, histOf (p :: rest) v = histOf rest v + if p.r = v then 1 else 0 := by
      intro v
      simp [histOf, List.countP_cons]
    unfold partW
    calc ∑ i ∈ Finset.range 256, histOf (p :: rest) i
        = ∑ i ∈ Finset.range 256, (histOf rest i + if p.r = i then 1 else 0) :=
          Finset.sum_congr rfl (fun i _ => hcount i)
      _ = (∑ i ∈ Finset.range 256, histOf rest i)
            + ∑ i ∈ Finset.range 256, (if p.r = i then 1 else 0) :=
          Finset.sum_add_distrib
      _ = rest.length + 1 := by
          rw [show (∑ i ∈ Finset.range 256, histOf rest i) = rest.length from ih hrest,
            Finset.sum_ite_eq]
          simp [Finset.mem_range.mpr hp]
      _ = (p :: rest).length := by simp

lemma partW_succ (hist : ℕ → ℕ) (n : ℕ) :
    partW hist (n + 1) = partW hist n + hist n := Finset.sum_range_succ _ _

lemma partS_succ (hist : ℕ → ℕ) (n : ℕ) :
    partS hist (n + 1) = partS hist n + n * hist n := Finset.sum_range_succ _ _

lemma partW_mono (hist : ℕ → ℕ) {n m : ℕ} (h : n ≤ m) :
    partW hist n ≤ partW hist m :=
  Finset.sum_le_sum_of_subset (Finset.range_subset.mpr h)

lemma foldl_add_range (f : ℕ → ℕ) (n a : ℕ) :
    (List.range n).foldl (fun acc i => acc + f i) a = a + ∑ i ∈ Finset.range n, f i := by
  induction n generalizing a with
  | zero => simp
  | succ m ih =>
    rw [List.range_succ, List.foldl_append, ih, Finset.sum_range_succ]
    simp [Nat.add_assoc]

lemma histSum_eq (hist : ℕ → ℕ) : histSum hist = partS hist 256 := by
  rw [histSum, foldl_add_range]
  simp [partS]

lemma betweenVariance_of_wB_zero {hist : ℕ → ℕ} {total t : ℕ}
    (h : partW hist (t + 1) = 0) : betweenVariance hist total t = 0 := by
  simp [betweenVariance, h]

lemma betweenVariance_of_wF_zero {hist : ℕ → ℕ} {total t : ℕ}
    (h : partW hist (t + 1) = total) : betweenVariance hist total t = 0 := by
  simp [betweenVariance, h]

lemma betweenVariance_nonneg {hist : ℕ → ℕ} {total t : ℕ}
    (hsum : partW hist 256 = total) (ht : t < 256) :
    0 ≤ betweenVariance hist total t := by
  have h1 : (0 : ℚ) ≤ (partW hist (t + 1) : ℚ) := Nat.cast_nonneg _
  have h2 : (0 : ℚ) ≤ (total : ℚ) - (partW hist (t + 1) : ℚ) := by
    rw [sub_nonneg]
    have hle : partW hist (t + 1) ≤ partW hist 256 := partW_mono hist (by omega)
    rw [hsum] at hle
    exact_mod_cast hle
  rw [betweenVariance]
  set d : ℚ := (partS hist (t + 1) : ℚ) / (partW hist (t + 1) : ℚ) -
      ((partS hist 256 : ℚ) - (partS hist (t + 1) : ℚ)) /
        ((total : ℚ) - (partW hist (t + 1) : ℚ)) with hd
  have : (partW hist (t + 1) : ℚ) * ((total : ℚ) - (partW hist (t + 1) : ℚ)) * d * d =
      ((partW hist (t + 1) : ℚ) * ((total : ℚ) - (partW hist (t + 1) : ℚ))) * (d * d) := by
    ring
  rw [this]
  exact mul_nonneg (mul_nonneg h1 h2) (mul_self_nonneg d)

lemma step_variance_eq (hist : ℕ → ℕ) (total n wB sumB : ℕ)
    (hW : wB = partW hist (n + 1)) (hS : sumB = partS hist (n + 1)) :
    (wB : ℚ) * ((((total : ℤ) - (wB : ℤ)) : ℤ) : ℚ) *
      ((sumB : ℚ) / (wB : ℚ) -
        ((partS hist 256 : ℚ) - (sumB : ℚ)) / ((((total : ℤ) - (wB : ℤ)) : ℤ) : ℚ)) *
      ((sumB : ℚ) / (wB : ℚ) -
        ((partS hist 256 : ℚ) - (sumB : ℚ)) / ((((total : ℤ) - (wB : ℤ)) : ℤ) : ℚ)) =
    betweenVariance hist total n := by
  subst hW hS
  rw [betweenVariance]
  push_cast
  ring

/-- One step of the Otsu loop preserves the invariant. -/
lemma otsuStep_inv (hist : ℕ → ℕ) (total n : ℕ) (s : OtsuState)
    (hsum : partW hist 256 = total) (hn : n < 256) (hs : OtsuInv hist total n s) :
    OtsuInv hist total (n + 1) (otsuStep hist (partS hist 256) total s n) := by
  obtain ⟨inv1, inv2, inv3, inv4, inv5⟩ := hs
  have hmaxnn : 0 ≤ s.maxVariance := by
    rcases Nat.eq_zero_or_pos n with h0 | hpos
    · rw [(inv5 h0).2.1]
    · rw [← (inv4 hpos).1]
      exact betweenVariance_nonneg hsum (by omega)
  have hthr0 : 0 < n → s.threshold < n := fun hpos => (inv4 hpos).2.1
  by_cases hbroke : s.broke = true
  · -- the break on wF = 0 has already fired: the state is unchanged
    have hstep : otsuStep hist (partS hist 256) total s n = s := by
      simp only [otsuStep]
      rw [if_pos hbroke]
    rw [hstep]
    have hW : partW hist (n + 1) = total := by
      have h1 := inv2 hbroke
      have h2 : partW hist n ≤ partW hist (n + 1) := partW_mono hist (by omega)
      have h3 : partW hist (n + 1) ≤ partW hist 256 := partW_mono hist (by omega)
      omega
    have hvn : betweenVariance hist total n = 0 := betweenVariance_of_wF_zero hW
    have hnpos : 0 < n := by
      rcases Nat.eq_zero_or_pos n with h0 | hpos
      · have := (inv5 h0).2.2
        rw [hbroke] at this
        exact absurd this (by simp)
      · exact hpos
    refine ⟨fun h => absurd hbroke (by simp [h]), fun _ => hW, ?_, ?_, by omega⟩
    · intro t ht
      rcases Nat.lt_succ_iff_lt_or_eq.mp ht with h | h
      · exact inv3 t h
      · subst h
        rw [hvn]
        exact hmaxnn
    · intro _
      obtain ⟨e1, e2, e3⟩ := inv4 hnpos
      refine ⟨e1, by omega, fun t ht hv => ?_⟩
      rcases Nat.lt_succ_iff_lt_or_eq.mp ht with h | h
      · exact e3 t h hv
      · omega
  · have hbf : s.broke = false := by
      cases hb : s.broke
      · rfl
      · exact absurd hb hbroke
    obtain ⟨hwB, hsB⟩ := inv1 hbf
    have hWeq : s.wB + hist n = partW hist (n + 1) := by
      rw [partW_succ, hwB]
    have hSeq : s.sumB + n * hist n = partS hist (n + 1) := by
      rw [partS_succ, hsB]
    by_cases hwb0 : s.wB + hist n = 0
    · -- wB = 0: the `continue` branch
      have hstep : otsuStep hist (partS hist 256) total s n =
          { s with wB := s.wB + hist n } := by
        simp only [otsuStep]
        rw [if_neg (by simp [hbf]), if_pos hwb0]
      rw [hstep]
      have hWz : partW hist (n + 1) = 0 := by omega
      have hvn : betweenVariance hist total n = 0 := betweenVariance_of_wB_zero hWz
      have hhist0 : hist n = 0 := by omega
      refine ⟨fun _ => ⟨by simpa using hWeq, ?_⟩, fun h => absurd h (by simp [hbf]), ?_, ?_, by omega⟩
      · show s.sumB = partS hist (n + 1)
        rw [partS_succ, hhist0, Nat.mul_zero, Nat.add_zero, hsB]
      · intro t ht
        show betweenVariance hist total t ≤ s.maxVariance
        rcases Nat.lt_succ_iff_lt_or_eq.mp ht with h | h
        · exact inv3 t h
        · subst h
          rw [hvn]
          exact hmaxnn
      · intro _
        rcases Nat.eq_zero_or_pos n with h0 | hpos
        · subst h0
          obtain ⟨f1, f2, _⟩ := inv5 rfl
          refine ⟨?_, by show s.threshold < 0 + 1; omega, fun t ht _ => by
            show s.threshold ≤ t; omega⟩
          show betweenVariance hist total s.threshold = s.maxVariance
          rw [f1, f2]
          exact betweenVariance_of_wB_zero (by simpa using hWz)
        · obtain ⟨e1, e2, e3⟩ := inv4 hpos
          refine ⟨e1, by show s.threshold < n + 1; omega, fun t ht hv => ?_⟩
          show s.threshold ≤ t
          rcases Nat.lt_succ_iff_lt_or_eq.mp ht with h | h
          · exact e3 t h hv
          · omega
    · by_cases hwf0 : (total : ℤ) - ((s.wB + hist n : ℕ) : ℤ) = 0
      · -- wF = 0: the `break` branch
        have hstep : otsuStep hist (partS hist 256) total s n =
            { s with broke := true } := by
          simp only [otsuStep]
          rw [if_neg (by simp [hbf]), if_neg hwb0, if_pos hwf0]
        rw [hstep]
        have hWt : partW hist (n + 1) = total := by
          have h1 : ((s.wB + hist n : ℕ) : ℤ) = (total : ℤ) := by omega
          have h2 : s.wB + hist n = total := by exact_mod_cast h1
          omega
        have hvn : betweenVariance hist total n = 0 := betweenVariance_of_wF_zero hWt
        have hnth : 0 < n → s.threshold < n := hthr0
        refine ⟨fun h => by simp at h, fun _ => hWt, ?_, ?_, by omega⟩
        · intro t ht
          show betweenVariance hist total t ≤ s.maxVariance
          rcases Nat.lt_succ_iff_lt_or_eq.mp ht with h | h
          · exact inv3 t h
          · subst h
            rw [hvn]
            exact hmaxnn
        · intro _
          rcases Nat.eq_zero_or_pos n with h0 | hpos
          · subst h0
            obtain ⟨f1, f2, _⟩ := inv5 rfl
            refine ⟨?_, by show s.threshold < 0 + 1; omega, fun t ht _ => by
              show s.threshold ≤ t; omega⟩
            show betweenVariance hist total s.threshold = s.maxVariance
            rw [f1, f2]
            exact betweenVariance_of_wF_zero (by simpa using hWt)
          · obtain ⟨e1, e2, e3⟩ := inv4 hpos
            refine ⟨e1, by show s.threshold < n + 1; omega, fun t ht hv => ?_⟩
            show s.threshold ≤ t
            rcases Nat.lt_succ_iff_lt_or_eq.mp ht with h | h
            · exact e3 t h hv
            · omega
      · -- the live branch: compute the variance and compare with the maximum
        have hv := step_variance_eq hist total n (s.wB + hist n) (s.sumB + n * hist n)
          hWeq hSeq
        have hstep : otsuStep hist (partS hist 256) total s n =
            (if s.maxVariance < betweenVariance hist total n then
              ⟨partW hist (n + 1), partS hist (n + 1), betweenVariance hist total n, n, false⟩
            else { s with wB := partW hist (n + 1), sumB := partS hist (n + 1) }) := by
          simp only [otsuStep]
          rw [if_neg (by simp [hbf]), if_neg hwb0, if_neg hwf0, hv, hWeq, hSeq]
        rw [hstep]
        by_cases hlt : s.maxVariance < betweenVariance hist total n
        · rw [if_pos hlt]
          refine ⟨fun _ => ⟨rfl, rfl⟩, fun h => by simp at h, ?_, ?_, by omega⟩
          · intro t ht
            show betweenVariance hist total t ≤ betweenVariance hist total n
            rcases Nat.lt_succ_iff_lt_or_eq.mp ht with h | h
            · exact le_of_lt (lt_of_le_of_lt (inv3 t h) hlt)
            · subst h
              exact le_refl _
          · intro _
            refine ⟨rfl, by show n < n + 1; omega, fun t ht hveq => ?_⟩
            show n ≤ t
            rcases Nat.lt_succ_iff_lt_or_eq.mp ht with h | h
            · exact absurd hveq (by
                have hlt2 := lt_of_le_of_lt (inv3 t h) hlt
                exact ne_of_lt hlt2)
            · omega
        · rw [if_neg hlt]
          have hle : betweenVariance hist total n ≤ s.maxVariance := not_lt.mp hlt
          refine ⟨fun _ => ⟨rfl, rfl⟩, fun h => absurd h (by simp [hbf]), ?_, ?_, by omega⟩
          · intro t ht
            show betweenVariance hist total t ≤ s.maxVariance
            rcases Nat.lt_succ_iff_lt_or_eq.mp ht with h | h
            · exact inv3 t h
            · subst h
              exact hle
          · intro _
            rcases Nat.eq_zero_or_pos n with h0 | hpos
            · subst h0
              obtain ⟨f1, f2, _⟩ := inv5 rfl
              have hv0 : betweenVariance hist total 0 = 0 := by
                have hnn := betweenVariance_nonneg hsum (show (0 : ℕ) < 256 by omega)
                rw [f2] at hle
                exact le_antisymm hle hnn
              refine ⟨?_, by show s.threshold < 0 + 1; omega, fun t ht _ => by
                show s.threshold ≤ t; omega⟩
              show betweenVariance hist total s.threshold = s.maxVariance
              rw [f1, f2]
              exact hv0
            · obtain ⟨e1, e2, e3⟩ := inv4 hpos
              refine ⟨e1, by show s.threshold < n + 1; omega, fun t ht hveq => ?_⟩
              show s.threshold ≤ t
              rcases Nat.lt_succ_iff_lt_or_eq.mp ht with h | h
              · exact e3 t h hveq
              · omega

/-- After all 256 iterations the invariant holds for the whole scan. -/
lemma otsuScan_inv (hist : ℕ → ℕ) (total : ℕ) (hsum : partW hist 256 = total) :
    OtsuInv hist total 256 (otsuScan hist (histSum hist) total) := by
  have key : ∀ n, n ≤ 256 → OtsuInv hist total n
      ((List.range n).foldl (otsuStep hist (partS hist 256) total) ⟨0, 0, 0, 0, false⟩) := by
    intro n
    induction n with
    | zero =>
      intro _
      exact ⟨fun _ => ⟨rfl, rfl⟩, fun h => by simp at h, fun t ht => by omega,
        fun h => by omega, fun _ => ⟨rfl, rfl, rfl⟩⟩
    | succ m ih =>
      intro h
      rw [List.range_succ, List.foldl_append, List.foldl_cons, List.foldl_nil]
      exact otsuStep_inv hist total m _ hsum (by omega) (ih (by omega))
  rw [otsuScan, histSum_eq]
  exact key 256 le_rfl

lemma mem_binarizePass {t : ℕ} {d : List Pixel} {p : Pixel} (hp : p ∈ binarizePass t d) :
    (p.r = 0 ∨ p.r = 255) ∧ p.g = p.r ∧ p.b = p.r := by
  simp only [binarizePass, List.mem_map] at hp
  obtain ⟨q, _, rfl⟩ := hp
  by_cases h : t < q.r <;> simp [h]

lemma length_binarizePass (t : ℕ) (d : List Pixel) :
    (binarizePass t d).length = d.length := by
  simp [binarizePass]

lemma length_grayscalePass (d : List Pixel) :
    (grayscalePass d).length = d.length := by
  simp [grayscalePass]

lemma foldl_fixed {α β : Type} (g : β → α → β) (a : β) (l : List α)
    (h : ∀ x, g a x = a) : l.foldl g a = a := by
  induction l with
  | nil => rfl
  | cons x xs ih => rw [List.foldl_cons, h x]; exact ih

lemma medianUpdate_id {w : ℕ} {temp d : List Pixel} {y x : ℕ}
    (hd : ∀ p ∈ d, p.r = 0 ∨ p.r = 255) : medianUpdate w temp d y x = d := by
  unfold medianUpdate
  have : (d.getD (y * w + x) ⟨0, 0, 0, 0⟩).r = 0 ∨
      (d.getD (y * w + x) ⟨0, 0, 0, 0⟩).r = 255 := by
    rcases Nat.lt_or_ge (y * w + x) d.length with h | h
    · rw [List.getD_eq_getElem _ _ h]
      exact hd _ (List.getElem_mem h)
    · rw [List.getD_eq_default _ _ h]
      exact Or.inl rfl
  rw [if_pos this]

lemma medianPass_id {w h : ℕ} {d : List Pixel}
    (hd : ∀ p ∈ d, p.r = 0 ∨ p.r = 255) : medianPass w h d = d := by
  unfold medianPass
  split
  · apply foldl_fixed
    intro y
    split
    · apply foldl_fixed
      intro x
      split
      · exact medianUpdate_id hd
      · rfl
    · rfl
  · rfl

/-- C2: the normalizer keeps the dimensions and produces only 0/255 channels. -/
theorem c2_preprocess_binarizes (img : RasterImage)
    (hw : 1 ≤ img.width) (hh : 1 ≤ img.height)
    (hlen : img.data.length = img.width * img.height) :
    (preprocessImage img).width = img.width ∧
    (preprocessImage img).height = img.height ∧
    (preprocessImage img).data.length = img.data.length ∧
    ∀ p ∈ (preprocessImage img).data,
      (p.r = 0 ∨ p.r = 255) ∧ (p.g = 0 ∨ p.g = 255) ∧ (p.b = 0 ∨ p.b = 255) := by
  have hbin : ∀ p ∈ binarizePass
      (otsuThreshold (histOf (grayscalePass img.data)) (img.width * img.height))
      (grayscalePass img.data), p.r = 0 ∨ p.r = 255 :=
    fun p hp => (mem_binarizePass hp).1
  have hmed : preprocessImage img = ⟨img.width, img.height,
      binarizePass (otsuThreshold (histOf (grayscalePass img.data))
        (img.width * img.height)) (grayscalePass img.data)⟩ := by
    simp only [preprocessImage]
    rw [medianPass_id hbin]
  refine ⟨by rw [hmed], by rw [hmed], ?_, ?_⟩
  · rw [hmed]
    simp [length_binarizePass, length_grayscalePass]
  · intro p hp
    rw [hmed] at hp
    obtain ⟨h1, h2, h3⟩ := mem_binarizePass hp
    exact ⟨h1, h2 ▸ h1, h3 ▸ h1⟩

/-- Witness for C2 at a concrete 2 x 2 image (median pass skipped). -/
theorem c2_preprocess_binarizes_witness :
    (preprocessImage ⟨2, 2, [⟨10, 20, 30, 255⟩, ⟨200, 210, 220, 255⟩,
        ⟨0, 0, 0, 255⟩, ⟨255, 255, 255, 255⟩]⟩).width = 2 ∧
    (preprocessImage ⟨2, 2, [⟨10, 20, 30, 255⟩, ⟨200, 210, 220, 255⟩,
        ⟨0, 0, 0, 255⟩, ⟨255, 255, 255, 255⟩]⟩).height = 2 ∧
    (preprocessImage ⟨2, 2, [⟨10, 20, 30, 255⟩, ⟨200, 210, 220, 255⟩,
        ⟨0, 0, 0, 255⟩, ⟨255, 255, 255, 255⟩]⟩).data.length =
      ([⟨10, 20, 30, 255⟩, ⟨200, 210, 220, 255⟩,
        ⟨0, 0, 0, 255⟩, ⟨255, 255, 255, 255⟩] : List Pixel).length ∧
    ∀ p ∈ (preprocessImage ⟨2, 2, [⟨10, 20, 30, 255⟩, ⟨200, 210, 220, 255⟩,
        ⟨0, 0, 0, 255⟩, ⟨255, 255, 255, 255⟩]⟩).data,
      (p.r = 0 ∨ p.r = 255) ∧ (p.g = 0 ∨ p.g = 255) ∧ (p.b = 0 ∨ p.b = 255) :=
  c2_preprocess_binarizes ⟨2, 2, [⟨10, 20, 30, 255⟩, ⟨200, 210, 220, 255⟩,
    ⟨0, 0, 0, 255⟩, ⟨255, 255, 255, 255⟩]⟩ (by decide) (by decide) (by decide)

/-- C3: the Otsu step of the normalizer selects the earliest t in [0, 255]
maximizing the between-class variance wB(t) * wF(t) * (mB(t) - mF(t))^2 (a
forward scan updating only on strict improvement), and afterwards every pixel
with intensity strictly greater than t becomes 255 and every other pixel 0 on
all three channels (the median pass leaves the binarized data unchanged). -/
theorem c3_otsu_earliest_argmax (img : RasterImage)
    (hlen : img.data.length = img.width * img.height) :
    otsuThreshold (histOf (grayscalePass img.data)) (img.width * img.height) ≤ 255 ∧
    (∀ t, t ≤ 255 →
      betweenVariance (histOf (grayscalePass img.data)) (img.width * img.height) t ≤
      betweenVariance (histOf (grayscalePass img.data)) (img.width * img.height)
        (otsuThreshold (histOf (grayscalePass img.data)) (img.width * img.height))) ∧
    (∀ t, t ≤ 255 →
      betweenVariance (histOf (grayscalePass img.data)) (img.width * img.height) t =
      betweenVariance (histOf (grayscalePass img.data)) (img.width * img.height)
        (otsuThreshold (histOf (grayscalePass img.data)) (img.width * img.height)) →
      otsuThreshold (histOf (grayscalePass img.data)) (img.width * img.height) ≤ t) ∧
    preprocessImage img = ⟨img.width, img.height,
      binarizePass (otsuThreshold (histOf (grayscalePass img.data))
        (img.width * img.height)) (grayscalePass img.data)⟩ := by
  have hsum : partW (histOf (grayscalePass img.data)) 256 = img.width * img.height := by
    rw [partW_histOf _ (grayscalePass_r_lt img.data), length_grayscalePass, hlen]
  obtain ⟨_, _, i3, i4, _⟩ :=
    otsuScan_inv (histOf (grayscalePass img.data)) (img.width * img.height) hsum
  obtain ⟨e1, e2, e3⟩ := i4 (by omega)
  refine ⟨?_, ?_, ?_, ?_⟩
  · show (otsuScan (histOf (grayscalePass img.data))
      (histSum (histOf (grayscalePass img.data))) (img.width * img.height)).threshold ≤ 255
    omega
  · intro t ht
    exact le_of_le_of_eq (i3 t (by omega)) e1.symm
  · intro t ht hveq
    exact e3 t (by omega) (hveq.trans e1)
  · have hbin : ∀ p ∈ binarizePass
        (otsuThreshold (histOf (grayscalePass img.data)) (img.width * img.height))
        (grayscalePass img.data), p.r = 0 ∨ p.r = 255 :=
      fun p hp => (mem_binarizePass hp).1
    simp only [preprocessImage]
    rw [medianPass_id hbin]

/-- Witness for C3 at a concrete 2 x 1 black/white image. -/
theorem c3_otsu_earliest_argmax_witness :
    otsuThreshold (histOf (grayscalePass [⟨0, 0, 0, 255⟩, ⟨255, 255, 255, 255⟩])) (2 * 1) ≤ 255 ∧
    (∀ t, t ≤ 255 →
      betweenVariance (histOf (grayscalePass [⟨0, 0, 0, 255⟩, ⟨255, 255, 255, 255⟩])) (2 * 1) t ≤
      betweenVariance (histOf (grayscalePass [⟨0, 0, 0, 255⟩, ⟨255, 255, 255, 255⟩])) (2 * 1)
        (otsuThreshold (histOf (grayscalePass [⟨0, 0, 0, 255⟩, ⟨255, 255, 255, 255⟩])) (2 * 1))) ∧
    (∀ t, t ≤ 255 →
      betweenVariance (histOf (grayscalePass [⟨0, 0, 0, 255⟩, ⟨255, 255, 255, 255⟩])) (2 * 1) t =
      betweenVariance (histOf (grayscalePass [⟨0, 0, 0, 255⟩, ⟨255, 255, 255, 255⟩])) (2 * 1)
        (otsuThreshold (histOf (grayscalePass [⟨0, 0, 0, 255⟩, ⟨255, 255, 255, 255⟩])) (2 * 1)) →
      otsuThreshold (histOf (grayscalePass [⟨0, 0, 0, 255⟩, ⟨255, 255, 255, 255⟩])) (2 * 1) ≤ t) ∧
    preprocessImage ⟨2, 1, [⟨0, 0, 0, 255⟩, ⟨255, 255, 255, 255⟩]⟩ = ⟨2, 1,
      binarizePass (otsuThreshold (histOf (grayscalePass [⟨0, 0, 0, 255⟩, ⟨255, 255, 255, 255⟩]))
        (2 * 1)) (grayscalePass [⟨0, 0, 0, 255⟩, ⟨255, 255, 255, 255⟩])⟩ :=
  c3_otsu_earliest_argmax ⟨2, 1, [⟨0, 0, 0, 255⟩, ⟨255, 255, 255, 255⟩]⟩ (by decide)

/-! ### Idempotence on binarized images (C4) -/

lemma grayValue_black (a : ℕ) : grayValue ⟨0, 0, 0, a⟩ = 0 := by
  have harg : ((299 : ℚ) / 1000) * (0 : ℕ) + ((587 : ℚ) / 1000) * (0 : ℕ)
      + ((114 : ℚ) / 1000) * (0 : ℕ) = 0 := by norm_num
  unfold grayValue
  rw [harg]
  unfold clampRound
  norm_num

lemma grayValue_white (a : ℕ) : grayValue ⟨255, 255, 255, a⟩ = 255 := by
  have harg : ((299 : ℚ) / 1000) * ((255 : ℕ) : ℚ) + ((587 : ℚ) / 1000) * ((255 : ℕ) : ℚ)
      + ((114 : ℚ) / 1000) * ((255 : ℕ) : ℚ) = 255 := by norm_num
  unfold grayValue
  rw [harg]
  unfold clampRound
  norm_num

lemma grayscale_fix {p : Pixel} (h1 : p.r = p.g) (h2 : p.g = p.b)
    (h3 : p.r = 0 ∨ p.r = 255) :
    (⟨grayValue p, grayValue p, grayValue p, p.a⟩ : Pixel) = p := by
  obtain ⟨r, g, b, a⟩ := p
  simp only at h1 h2 h3
  subst h1 h2
  rcases h3 with h | h <;> subst h
  · rw [grayValue_black]
  · rw [grayValue_white]

lemma grayscalePass_id {d : List Pixel}
    (hd : ∀ p ∈ d, p.r = p.g ∧ p.g = p.b ∧ (p.r = 0 ∨ p.r = 255)) :
    grayscalePass d = d := by
  induction d with
  | nil => rfl
  | cons p rest ih =>
    have hp := hd p (List.mem_cons_self p rest)
    have hrest : ∀ q ∈ rest, q.r = q.g ∧ q.g = q.b ∧ (q.r = 0 ∨ q.r = 255) :=
      fun q hq => hd q (List.mem_cons_of_mem _ hq)
    show (⟨grayValue p, grayValue p, grayValue p, p.a⟩ : Pixel) :: grayscalePass rest = p :: rest
    rw [ih hrest, grayscale_fix hp.1 hp.2.1 hp.2.2]

lemma binarize_zero_fix {p : Pixel} (h1 : p.r = p.g) (h2 : p.g = p.b)
    (h3 : p.r = 0 ∨ p.r = 255) :
    (⟨if 0 < p.r then 255 else 0, if 0 < p.r then 255 else 0,
      if 0 < p.r then 255 else 0, p.a⟩ : Pixel) = p := by
  obtain ⟨r, g, b, a⟩ := p
  simp only at h1 h2 h3
  subst h1 h2
  rcases h3 with h | h <;> subst h <;> simp

lemma binarizePass_zero_id {d : List Pixel}
    (hd : ∀ p ∈ d, p.r = p.g ∧ p.g = p.b ∧ (p.r = 0 ∨ p.r = 255)) :
    binarizePass 0 d = d := by
  induction d with
  | nil => rfl
  | cons p rest ih =>
    have hp := hd p (List.mem_cons_self p rest)
    have hrest : ∀ q ∈ rest, q.r = q.g ∧ q.g = q.b ∧ (q.r = 0 ∨ q.r = 255) :=
      fun q hq => hd q (List.mem_cons_of_mem _ hq)
    show (⟨if 0 < p.r then 255 else 0, if 0 < p.r then 255 else 0,
      if 0 < p.r then 255 else 0, p.a⟩ : Pixel) :: binarizePass 0 rest = p :: rest
    rw [ih hrest, binarize_zero_fix hp.1 hp.2.1 hp.2.2]

/-- Over a histogram supported on the bins 0 and 255 the Otsu scan keeps the
initial threshold 0: the variance is the same at every t in [0, 254] and zero
at t = 255, so the first maximum is at t = 0. -/
lemma otsuThreshold_binary {d : List Pixel} (total : ℕ) (htot : d.length = total)
    (hd : ∀ p ∈ d, p.r = 0 ∨ p.r = 255) :
    otsuThreshold (histOf d) total = 0 := by
  have hr256 : ∀ p ∈ d, p.r < 256 := by
    intro p hp
    rcases hd p hp with h | h <;> omega
  have hsum : partW (histOf d) 256 = total := by
    rw [partW_histOf d hr256, htot]
  have hbins : ∀ v, histOf d v =
      (if v = 0 then histOf d 0 else 0) + (if v = 255 then histOf d 255 else 0) := by
    intro v
    by_cases hv0 : v = 0
    · subst hv0
      simp
    by_cases hv255 : v = 255
    · subst hv255
      simp
    · have hz : histOf d v = 0 := by
        rw [histOf, List.countP_eq_zero]
        intro p hp
        rcases hd p hp with h | h <;> simp [h] <;> omega
      rw [hz, if_neg hv0, if_neg hv255]
  have hW : ∀ n, partW (histOf d) n =
      (if 0 < n then histOf d 0 else 0) + (if 255 < n then histOf d 255 else 0) := by
    intro n
    unfold partW
    calc ∑ i ∈ Finset.range n, histOf d i
        = ∑ i ∈ Finset.range n,
            ((if i = 0 then histOf d 0 else 0) + (if i = 255 then histOf d 255 else 0)) :=
          Finset.sum_congr rfl (fun i _ => hbins i)
      _ = (∑ i ∈ Finset.range n, (if i = 0 then histOf d 0 else 0))
            + ∑ i ∈ Finset.range n, (if i = 255 then histOf d 255 else 0) :=
          Finset.sum_add_distrib
      _ = _ := by
          rw [Finset.sum_ite_eq' (Finset.range n) 0 (fun _ => histOf d 0),
            Finset.sum_ite_eq' (Finset.range n) 255 (fun _ => histOf d 255)]
          simp [Finset.mem_range]
  have hS : ∀ n, partS (histOf d) n = if 255 < n then 255 * histOf d 255 else 0 := by
    intro n
    unfold partS
    have hpt : ∀ i, i * histOf d i = (if i = 255 then 255 * histOf d 255 else 0) := by
      intro i
      rw [hbins i]
      by_cases h0 : i = 0
      · subst h0
        simp
      by_cases h255 : i = 255
      · subst h255
        simp
      · simp [h0, h255]
    calc ∑ i ∈ Finset.range n, i * histOf d i
        = ∑ i ∈ Finset.range n, (if i = 255 then 255 * histOf d 255 else 0) :=
          Finset.sum_congr rfl (fun i _ => hpt i)
      _ = _ := by
          rw [Finset.sum_ite_eq' (Finset.range n) 255 (fun _ => 255 * histOf d 255)]
          simp [Finset.mem_range]
  have hWt : ∀ t, t ≤ 254 → partW (histOf d) (t + 1) = histOf d 0 := by
    intro t ht
    rw [hW, if_pos (by omega), if_neg (by omega)]
    omega
  have hSt : ∀ t, t ≤ 254 → partS (histOf d) (t + 1) = 0 := by
    intro t ht
    rw [hS, if_neg (by omega)]
  have hconst : ∀ t, t ≤ 254 →
      betweenVariance (histOf d) total t = betweenVariance (histOf d) total 0 := by
    intro t ht
    rw [betweenVariance, betweenVariance, hWt t ht, hSt t ht,
      hWt 0 (by omega), hSt 0 (by omega)]
  have hmax : ∀ t, t < 256 →
      betweenVariance (histOf d) total t ≤ betweenVariance (histOf d) total 0 := by
    intro t ht
    rcases Nat.lt_or_ge t 255 with h | h
    · rw [hconst t (by omega)]
    · have ht255 : t = 255 := by omega
      subst ht255
      rw [betweenVariance_of_wF_zero hsum]
      exact betweenVariance_nonneg hsum (by omega)
  obtain ⟨_, _, i3, i4, _⟩ := otsuScan_inv (histOf d) total hsum
  obtain ⟨e1, e2, e3⟩ := i4 (by omega)
  have hv0max : betweenVariance (histOf d) total 0 =
      (otsuScan (histOf d) (histSum (histOf d)) total).maxVariance := by
    refine le_antisymm (i3 0 (by omega)) ?_
    rw [← e1]
    exact hmax _ e2
  have hle0 := e3 0 (by omega) hv0max
  show (otsuScan (histOf d) (histSum (histOf d)) total).threshold = 0
  omega

/-- The normalizer is the identity on an already binarized grayscale image. -/
lemma preprocess_binary_id {img : RasterImage}
    (hlen : img.data.length = img.width * img.height)
    (hd : ∀ p ∈ img.data, p.r = p.g ∧ p.g = p.b ∧ (p.r = 0 ∨ p.r = 255)) :
    preprocessImage img = img := by
  obtain ⟨w, h, dta⟩ := img
  simp only at hlen hd
  have hor : ∀ p ∈ dta, p.r = 0 ∨ p.r = 255 := fun p hp => (hd p hp).2.2
  have hgray : grayscalePass dta = dta := grayscalePass_id hd
  have hthr : otsuThreshold (histOf dta) (w * h) = 0 :=
    otsuThreshold_binary (w * h) hlen hor
  show (⟨w, h, medianPass w h (binarizePass (otsuThreshold (histOf (grayscalePass dta))
    (w * h)) (grayscalePass dta))⟩ : RasterImage) = ⟨w, h, dta⟩
  rw [hgray, hthr, binarizePass_zero_id hd, medianPass_id hor]

/-- C4: normalize (normalize img) = normalize img once every channel of img is
already 0 or 255 — the second Otsu pass over the bimodal 0/255 histogram
reproduces the same binary split. -/
theorem c4_normalize_idempotent (img : RasterImage)
    (hlen : img.data.length = img.width * img.height)
    (hbinary : ∀ p ∈ img.data,
      (p.r = 0 ∨ p.r = 255) ∧ (p.g = 0 ∨ p.g = 255) ∧ (p.b = 0 ∨ p.b = 255)) :
    preprocessImage (preprocessImage img) = preprocessImage img := by
  have hbin : ∀ p ∈ binarizePass (otsuThreshold (histOf (grayscalePass img.data))
      (img.width * img.height)) (grayscalePass img.data), p.r = 0 ∨ p.r = 255 :=
    fun p hp => (mem_binarizePass hp).1
  have hpre : preprocessImage img = ⟨img.width, img.height,
      binarizePass (otsuThreshold (histOf (grayscalePass img.data))
        (img.width * img.height)) (grayscalePass img.data)⟩ := by
    simp only [preprocessImage]
    rw [medianPass_id hbin]
  rw [hpre]
  apply preprocess_binary_id
  · simp [length_binarizePass, length_grayscalePass, hlen]
  · intro p hp
    obtain ⟨h1, h2, h3⟩ := mem_binarizePass hp
    exact ⟨h2.symm, by rw [h2, h3], h1⟩

/-- Witness for C4 at a concrete 1 x 2 image with mixed 0/255 channels. -/
theorem c4_normalize_idempotent_witness :
    preprocessImage (preprocessImage ⟨1, 2, [⟨255, 0, 255, 7⟩, ⟨0, 0, 0, 9⟩]⟩) =
      preprocessImage ⟨1, 2, [⟨255, 0, 255, 7⟩, ⟨0, 0, 0, 9⟩]⟩ :=
  c4_normalize_idempotent ⟨1, 2, [⟨255, 0, 255, 7⟩, ⟨0, 0, 0, 9⟩]⟩ (by decide) (by decide)

/-! ### Stable descending sort: the head is the earliest maximum -/

lemma insertByDesc_ne_nil {α β : Type} [LinearOrder β] (key : α → β) (x : α)
    (l : List α) : insertByDesc key x l ≠ [] := by
  cases l with
  | nil => simp [insertByDesc]
  | cons y ys =>
    unfold insertByDesc
    split <;> simp

lemma sortByDesc_eq_nil {α β : Type} [LinearOrder β] (key : α → β) {l : List α}
    (h : sortByDesc key l = []) : l = [] := by
  cases l with
  | nil => rfl
  | cons x xs =>
    exact absurd h (insertByDesc_ne_nil key x (sortByDesc key xs))

lemma head_insertByDesc {α β : Type} [LinearOrder β] (key : α → β) (x : α)
    (l : List α) :
    (insertByDesc key x l).head? =
      some (match l.head? with
        | none => x
        | some y => if key x < key y then y else x) := by
  cases l with
  | nil => rfl
  | cons y ys =>
    show (if key x < key y then y :: insertByDesc key x ys else x :: y :: ys).head? = _
    by_cases hc : key x < key y
    · rw [if_pos hc]
      simp [hc]
    · rw [if_neg hc]
      simp [hc]

lemma mem_insertByDesc {α β : Type} [LinearOrder β] {key : α → β} {x z : α} :
    ∀ {l : List α}, z ∈ insertByDesc key x l → z = x ∨ z ∈ l := by
  intro l
  induction l with
  | nil => simp [insertByDesc]
  | cons y ys ih =>
    unfold insertByDesc
    split
    · intro h
      rcases List.mem_cons.mp h with h1 | h1
      · exact Or.inr (h1 ▸ List.mem_cons_self y ys)
      · rcases ih h1 with h2 | h2
        · exact Or.inl h2
        · exact Or.inr (List.mem_cons_of_mem y h2)
    · intro h
      rcases List.mem_cons.mp h with h1 | h1
      · exact Or.inl h1
      · exact Or.inr h1

/-- The head of the stable descending sort is in the list, dominates every
key, and every element strictly before it in the original order has a
strictly smaller key (first maximum wins on ties). -/
lemma sortByDesc_head_spec {α β : Type} [LinearOrder β] (key : α → β) :
    ∀ (l : List α) (m : α), (sortByDesc key l).head? = some m →
      ∃ l₁ l₂, l = l₁ ++ m :: l₂ ∧ (∀ x ∈ l₁, key x < key m) ∧
        ∀ x ∈ l, key x ≤ key m := by
  intro l
  induction l with
  | nil => intro m h; simp [sortByDesc] at h
  | cons x xs ih =>
    intro m h
    have hsx : sortByDesc key (x :: xs) = insertByDesc key x (sortByDesc key xs) := rfl
    rw [hsx, head_insertByDesc] at h
    rcases hson : (sortByDesc key xs).head? with _ | y
    · -- sorted xs is empty, so xs is empty and m = x
      rw [hson] at h
      simp only [Option.some.injEq] at h
      have hxs : xs = [] := by
        rcases hnil : sortByDesc key xs with _ | ⟨z, zs⟩
        · exact sortByDesc_eq_nil key hnil
        · rw [hnil] at hson
          simp at hson
      subst hxs
      exact ⟨[], [], by simp [h.symm], by simp, by simp [h.symm]⟩
    · rw [hson] at h
      simp only [Option.some.injEq] at h
      obtain ⟨l₁, l₂, hsplit, hlt, hmax⟩ := ih y hson
      by_cases hcmp : key x < key y
      · rw [if_pos hcmp] at h
        subst h
        refine ⟨x :: l₁, l₂, by simp [hsplit], ?_, ?_⟩
        · intro z hz
          rcases List.mem_cons.mp hz with hz | hz
          · subst hz; exact hcmp
          · exact hlt z hz
        · intro z hz
          rcases List.mem_cons.mp hz with hz | hz
          · subst hz; exact le_of_lt hcmp
          · exact hmax z (hsplit ▸ hz)
      · rw [if_neg hcmp] at h
        subst h
        refine ⟨[], xs, by simp, by simp, ?_⟩
        intro z hz
        rcases List.mem_cons.mp hz with hz | hz
        · subst hz; exact le_refl _
        · exact le_trans (hmax z (hsplit ▸ hz)) (not_lt.mp hcmp)

lemma insertByDesc_front {α β : Type} [LinearOrder β] (key : α → β) (x : α)
    {l : List α} (h : ∀ z ∈ l, ¬ key x < key z) :
    insertByDesc key x l = x :: l := by
  cases l with
  | nil => rfl
  | cons y ys =>
    unfold insertByDesc
    rw [if_neg (h y (List.mem_cons_self y ys))]

lemma sortByDesc_sorted {α β : Type} [LinearOrder β] (key : α → β) :
    ∀ l : List α, List.Pairwise (fun a b => key b ≤ key a) (sortByDesc key l) := by
  intro l
  induction l with
  | nil => simp [sortByDesc]
  | cons x xs ih =>
    show List.Pairwise _ (insertByDesc key x (sortByDesc key xs))
    revert ih
    generalize sortByDesc key xs = m
    intro hm
    induction m with
    | nil => simp [insertByDesc]
    | cons y ys ihm =>
      unfold insertByDesc
      rcases List.pairwise_cons.mp hm with ⟨hy, hys⟩
      split
      · rename_i hxy
        refine List.pairwise_cons.mpr ⟨?_, ihm hys⟩
        intro z hz
        have hz' : z = x ∨ z ∈ ys := mem_insertByDesc hz
        rcases hz' with h1 | h1
        · subst h1; exact le_of_lt hxy
        · exact hy z h1
      · rename_i hxy
        refine List.pairwise_cons.mpr ⟨?_, hm⟩
        intro z hz
        rcases List.mem_cons.mp hz with h1 | h1
        · subst h1; exact not_lt.mp hxy
        · exact le_trans (hy z h1) (not_lt.mp hxy)

lemma filter_insertByDesc {α β : Type} [LinearOrder β] (key : α → β)
    (p : α → Bool) (x : α) :
    ∀ {l : List α}, List.Pairwise (fun a b => key b ≤ key a) l →
      (insertByDesc key x l).filter p =
        if p x then insertByDesc key x (l.filter p) else l.filter p := by
  intro l
  induction l with
  | nil =>
    intro _
    by_cases hp : p x <;> simp [insertByDesc, hp]
  | cons y ys ih =>
    intro hl
    rcases List.pairwise_cons.mp hl with ⟨hy, hys⟩
    show ((if key x < key y then y :: insertByDesc key x ys
      else x :: y :: ys).filter p) = _
    by_cases hc : key x < key y
    · rw [if_pos hc]
      by_cases hpy : p y
      · rw [List.filter_cons_of_pos (by simp [hpy]), ih hys,
          List.filter_cons_of_pos (by simp [hpy])]
        by_cases hpx : p x
        · rw [if_pos hpx, if_pos hpx]
          show y :: insertByDesc key x (ys.filter p) =
            if key x < key y then y :: insertByDesc key x (ys.filter p)
            else x :: y :: ys.filter p
          rw [if_pos hc]
        · rw [if_neg hpx, if_neg hpx]
      · rw [List.filter_cons_of_neg (by simp [hpy]), ih hys,
          List.filter_cons_of_neg (by simp [hpy])]
    · rw [if_neg hc]
      by_cases hpx : p x
      · rw [List.filter_cons_of_pos (by simp [hpx]), if_pos hpx]
        rw [insertByDesc_front]
        intro z hz
        have hzle : key z ≤ key y := by
          rcases List.mem_cons.mp (List.mem_of_mem_filter hz) with h1 | h1
          · exact h1 ▸ le_refl _
          · exact hy z h1
        exact not_lt.mpr (le_trans hzle (not_lt.mp hc))
      · rw [List.filter_cons_of_neg (by simp [hpx]), if_neg hpx]

lemma filter_sortByDesc {α β : Type} [LinearOrder β] (key : α → β) (p : α → Bool) :
    ∀ l : List α, (sortByDesc key l).filter p = sortByDesc key (l.filter p) := by
  intro l
  induction l with
  | nil => rfl
  | cons x xs ih =>
    show (insertByDesc key x (sortByDesc key xs)).filter p = sortByDesc key ((x :: xs).filter p)
    rw [filter_insertByDesc key p x (sortByDesc_sorted key xs), ih]
    by_cases hpx : p x
    · rw [if_pos hpx, List.filter_cons_of_pos (by simp [hpx])]
      rfl
    · rw [if_neg hpx, List.filter_cons_of_neg (by simp [hpx])]

/-! ### Soundness of the matcher combinators: matches are literal substrings -/

lemma msound_char (p : Char → Bool) : MSound (mChar p) := by
  intro s cr h
  cases s with
  | nil => simp [mChar] at h
  | cons c rest =>
    unfold mChar at h
    split at h <;> simp_all

lemma msound_eps : MSound mEps := by
  intro s cr h
  simp [mEps] at h
  simp [h]

lemma msound_fail : MSound mFail := by
  intro s cr h
  simp [mFail] at h

lemma msound_seq {a b : Matcher} (ha : MSound a) (hb : MSound b) :
    MSound (mSeq a b) := by
  intro s cr h
  simp only [mSeq, List.mem_flatMap, List.mem_map] at h
  obtain ⟨pr, hpr, dr, hdr, rfl⟩ := h
  have h1 := ha s pr hpr
  have h2 := hb pr.2 dr hdr
  simp only
  rw [List.append_assoc, h2, h1]

lemma msound_alt {a b : Matcher} (ha : MSound a) (hb : MSound b) :
    MSound (mAlt a b) := by
  intro s cr h
  rcases List.mem_append.mp h with h1 | h1
  · exact ha s cr h1
  · exact hb s cr h1

lemma msound_alts {ms : List Matcher} (h : ∀ m ∈ ms, MSound m) :
    MSound (mAlts ms) := by
  induction ms with
  | nil => exact msound_fail
  | cons m rest ih =>
    exact msound_alt (h m (List.mem_cons_self m rest))
      (ih (fun m' hm' => h m' (List.mem_cons_of_mem _ hm')))

lemma msound_opt {a : Matcher} (ha : MSound a) : MSound (mOpt a) :=
  msound_alt ha msound_eps

lemma msound_lits (lit : List Char) : MSound (mLits lit) := by
  induction lit with
  | nil => exact msound_eps
  | cons c cs ih => exact msound_seq (msound_char _) ih

lemma msound_strCI (lit : String) : MSound (mStrCI lit) := msound_lits lit.data

lemma msound_manyGreedy (p : Char → Bool) : MSound (mManyGreedy p) := by
  intro s
  induction s with
  | nil =>
    intro cr h
    simp [mManyGreedy] at h
    simp [h]
  | cons c rest ih =>
    intro cr h
    unfold mManyGreedy at h
    rcases List.mem_append.mp h with h1 | h1
    · split at h1
      · simp only [List.mem_map] at h1
        obtain ⟨dr, hdr, rfl⟩ := h1
        have := ih dr hdr
        simp only [List.cons_append]
        rw [this]
      · simp at h1
    · simp at h1
      simp [h1]

lemma msound_manyLazy (p : Char → Bool) : MSound (mManyLazy p) := by
  intro s
  induction s with
  | nil =>
    intro cr h
    simp [mManyLazy] at h
    simp [h]
  | cons c rest ih =>
    intro cr h
    unfold mManyLazy at h
    rcases List.mem_cons.mp h with h1 | h1
    · simp [h1]
    · split at h1
      · simp only [List.mem_map] at h1
        obtain ⟨dr, hdr, rfl⟩ := h1
        have := ih dr hdr
        simp only [List.cons_append]
        rw [this]
      · simp at h1

lemma msound_plusGreedy (p : Char → Bool) : MSound (mPlusGreedy p) :=
  msound_seq (msound_char p) (msound_manyGreedy p)

lemma msound_plusLazy (p : Char → Bool) : MSound (mPlusLazy p) :=
  msound_seq (msound_char p) (msound_manyLazy p)

lemma msound_repExact {a : Matcher} (ha : MSound a) : ∀ n, MSound (mRepExact a n) := by
  intro n
  induction n with
  | zero => exact msound_eps
  | succ m ih => exact msound_seq ha ih

lemma msound_repAtMost {a : Matcher} (ha : MSound a) : ∀ n, MSound (mRepAtMost a n) := by
  intro n
  induction n with
  | zero => exact msound_eps
  | succ m ih => exact msound_alt (msound_seq ha ih) msound_eps

lemma msound_repRange {a : Matcher} (ha : MSound a) (lo hi : ℕ) :
    MSound (mRepRange a lo hi) :=
  msound_seq (msound_repExact ha lo) (msound_repAtMost ha (hi - lo))

lemma msound_check (f : List Char → Bool) : MSound (mCheck f) := by
  intro s cr h
  unfold mCheck at h
  split at h <;> simp_all

lemma msound_seqs {ms : List Matcher} (h : ∀ m ∈ ms, MSound m) :
    MSound (mSeqs ms) := by
  induction ms with
  | nil => exact msound_eps
  | cons m rest ih =>
    exact msound_seq (h m (List.mem_cons_self m rest))
      (ih (fun m' hm' => h m' (List.mem_cons_of_mem _ hm')))

lemma msound_digits (lo hi : ℕ) : MSound (mDigits lo hi) :=
  msound_repRange (msound_char _) lo hi

lemma msound_datePat1 : MSound datePat1 := by
  apply msound_seqs
  intro m hm
  simp only [datePat1, List.mem_cons, List.not_mem_nil, or_false] at hm
  rcases hm with rfl | rfl | rfl | rfl | rfl | rfl
  · exact msound_digits 1 2
  · exact msound_char _
  · exact msound_digits 1 2
  · exact msound_char _
  · exact msound_digits 2 4
  · exact msound_check _

lemma msound_mMonth : MSound mMonth := by
  apply msound_alts
  intro m hm
  simp only [mMonth, List.mem_cons, List.not_mem_nil, or_false] at hm
  rcases hm with rfl | rfl | rfl | rfl | rfl | rfl | rfl | rfl | rfl | rfl | rfl | rfl <;>
    first
      | exact msound_strCI _
      | exact msound_seq (msound_strCI _) (msound_opt (msound_strCI _))

lemma msound_datePat2 : MSound datePat2 := by
  apply msound_seqs
  intro m hm
  simp only [datePat2, List.mem_cons, List.not_mem_nil, or_false] at hm
  rcases hm with rfl | rfl | rfl | rfl | rfl | rfl | rfl | rfl
  · exact msound_mMonth
  · exact msound_plusGreedy _
  · exact msound_digits 1 2
  · refine msound_opt (msound_alts ?_)
    intro m' hm'
    simp only [List.mem_cons, List.not_mem_nil, or_false] at hm'
    rcases hm' with rfl | rfl | rfl | rfl <;> exact msound_strCI _
  · exact msound_opt (msound_char _)
  · exact msound_plusGreedy _
  · exact msound_digits 4 4
  · exact msound_check _

lemma msound_datePat3 : MSound datePat3 := by
  apply msound_seqs
  intro m hm
  simp only [datePat3, List.mem_cons, List.not_mem_nil, or_false] at hm
  rcases hm with rfl | rfl | rfl | rfl | rfl | rfl
  · exact msound_digits 4 4
  · exact msound_char _
  · exact msound_digits 1 2
  · exact msound_char _
  · exact msound_digits 1 2
  · exact msound_check _

lemma msound_datePat4pre : MSound datePat4pre := by
  refine msound_seq (msound_alts ?_) (msound_plusGreedy _)
  intro m hm
  simp only [List.mem_cons, List.not_mem_nil, or_false] at hm
  rcases hm with rfl | rfl | rfl | rfl | rfl <;> exact msound_strCI _

lemma msound_datePat4cap : MSound datePat4cap := msound_plusLazy _

lemma head?_mem {α : Type} {l : List α} {a : α} (h : l.head? = some a) : a ∈ l := by
  cases l <;> simp_all

/-- Any property of matches that lifts along cons is carried by the scan. -/
lemma scanAux_prop (m : Matcher) (ok : Option Char → Bool)
    (P : List Char × List Char → List Char → Prop)
    (hm : ∀ s r, r ∈ m s → P r s)
    (hsuffix : ∀ r c s, P r s → P r (c :: s)) :
    ∀ prev s r, scanAux m ok prev s = some r → P r s := by
  intro prev s
  induction s generalizing prev with
  | nil =>
    intro r h
    unfold scanAux at h
    split at h
    · exact hm [] r (head?_mem h)
    · simp at h
  | cons c rest ih =>
    intro r h
    unfold scanAux at h
    rcases hcase : (if ok prev then (m (c :: rest)).head? else none) with _ | r'
    · rw [hcase] at h
      exact hsuffix r c rest (ih (some c) r h)
    · rw [hcase] at h
      simp only [Option.some.injEq] at h
      subst h
      split at hcase
      · exact hm _ r' (head?_mem hcase)
      · simp at hcase

/-- A successful scan of a sound matcher returns a literal substring. -/
lemma scan_substring {m : Matcher} (hm : MSound m) (ok : Option Char → Bool) :
    ∀ s r, scanAux m ok none s = some r → ∃ u v, u ++ r.1 ++ v = s := by
  intro s r h
  refine scanAux_prop m ok (fun r s => ∃ u v, u ++ r.1 ++ v = s) ?_ ?_ none s r h
  · intro s' r' hr'
    exact ⟨[], r'.2, by simpa using hm s' r' hr'⟩
  · rintro r' c s' ⟨u, v, rfl⟩
    exact ⟨c :: u, v, rfl⟩

/-- The captured group is a literal substring of the scanned text. -/
lemma capMatcher_substring {pre cap post : Matcher} (hpre : MSound pre)
    (hcap : MSound cap) :
    ∀ s r, r ∈ capMatcher pre cap post s → ∃ u v, u ++ r.1 ++ v = s := by
  intro s r h
  simp only [capMatcher, List.mem_flatMap, List.mem_map] at h
  obtain ⟨pr, hpr, cp, hcp, ps, hps, rfl⟩ := h
  have h1 := hpre s pr hpr
  have h2 := hcap pr.2 cp hcp
  refine ⟨pr.1, cp.2, ?_⟩
  show pr.1 ++ cp.1 ++ cp.2 = s
  rw [List.append_assoc, h2, h1]

lemma scanCap_substring {pre cap post : Matcher} (hpre : MSound pre)
    (hcap : MSound cap) :
    ∀ s r, scanAux (capMatcher pre cap post) okAlways none s = some r →
      ∃ u v, u ++ r.1 ++ v = s := by
  intro s r h
  refine scanAux_prop _ okAlways (fun r s => ∃ u v, u ++ r.1 ++ v = s) ?_ ?_ none s r h
  · exact capMatcher_substring hpre hcap
  · rintro r' c s' ⟨u, v, rfl⟩
    exact ⟨c :: u, v, rfl⟩

lemma trimJS_substring (l : List Char) : ∃ u v, u ++ trimJS l ++ v = l := by
  refine ⟨l.takeWhile isSpaceJS,
    ((l.dropWhile isSpaceJS).reverse.takeWhile isSpaceJS).reverse, ?_⟩
  have h2 := List.takeWhile_append_dropWhile (p := isSpaceJS)
    (l := (l.dropWhile isSpaceJS).reverse)
  have h3 : l.dropWhile isSpaceJS =
      ((l.dropWhile isSpaceJS).reverse.dropWhile isSpaceJS).reverse ++
        ((l.dropWhile isSpaceJS).reverse.takeWhile isSpaceJS).reverse := by
    have h4 := congrArg List.reverse h2
    rw [List.reverse_append, List.reverse_reverse] at h4
    exact h4.symm
  show l.takeWhile isSpaceJS ++ trimJS l ++ _ = l
  unfold trimJS
  conv_rhs => rw [← List.takeWhile_append_dropWhile (p := isSpaceJS) (l := l)]
  rw [List.append_assoc, ← h3]

lemma substring_trans {x y z : List Char} (h1 : ∃ u v, u ++ x ++ v = y)
    (h2 : ∃ u v, u ++ y ++ v = z) : ∃ u v, u ++ x ++ v = z := by
  obtain ⟨u1, v1, rfl⟩ := h1
  obtain ⟨u2, v2, rfl⟩ := h2
  exact ⟨u2 ++ u1, v1 ++ v2, by simp [List.append_assoc]⟩

/-! ### The claims about the field extractor -/

/-- C1: the field extraction step is a total function whose result carries the
input text verbatim in fullText, while date, total and merchant are each
computed independently by their own extractor — so a missing field never
blocks the others and the extraction call never fails. -/
theorem c1_extract_fields_total (text : String) :
    (extractFields text).fullText = text ∧
    (extractFields text).date = extractDate text ∧
    (extractFields text).total = extractTotal text ∧
    (extractFields text).merchant = extractMerchant text :=
  ⟨rfl, rfl, rfl, rfl⟩

lemma extractDateL_substring (text : List Char) (r : List Char)
    (h : extractDateL text = some r) :
    ∃ u v, u ++ r ++ v = trimJS (collapseWS text) := by
  simp only [extractDateL] at h
  rcases h1 : scanAux datePat1 okBoundary none (trimJS (collapseWS text)) with _ | r1
  · rw [h1] at h
    rcases h2 : scanAux datePat2 okBoundary none (trimJS (collapseWS text)) with _ | r2
    · rw [h2] at h
      rcases h3 : scanAux datePat3 okBoundary none (trimJS (collapseWS text)) with _ | r3
      · rw [h3] at h
        rcases h4 : scanAux (capMatcher datePat4pre datePat4cap datePat4post)
            okAlways none (trimJS (collapseWS text)) with _ | r4
        · rw [h4] at h
          simp at h
        · rw [h4] at h
          dsimp only at h
          split at h
          · simp only [Option.some.injEq] at h
            subst h
            exact substring_trans (trimJS_substring r4.1)
              (scanCap_substring msound_datePat4pre msound_datePat4cap _ _ h4)
          · simp at h
      · rw [h3] at h
        simp only [Option.some.injEq] at h
        subst h
        exact scan_substring msound_datePat3 _ _ _ h3
    · rw [h2] at h
      simp only [Option.some.injEq] at h
      subst h
      exact scan_substring msound_datePat2 _ _ _ h2
  · rw [h1] at h
    simp only [Option.some.injEq] at h
    subst h
    exact scan_substring msound_datePat1 _ _ _ h1

/-- C5: date extraction collapses whitespace first (the result depends only on
the collapsed text), tries the four pattern families in their fixed order
(shown here for the first family: its match is returned as-is), returns a
literal substring of the cleaned text unmodified, and on
"Invoice Date: 03/14/2024 Total: $5.00" returns "03/14/2024". -/
theorem c5_extract_date :
    extractDate ("Invoice Date: 03/14/2024 Total: $5.00") = some ("03/14/2024") ∧
    (∀ s t : String, collapseWS s.data = collapseWS t.data →
      extractDate s = extractDate t) ∧
    (∀ (s : String) r, scanAux datePat1 okBoundary none (trimJS (collapseWS s.data)) =
      some r → extractDate s = some (String.mk r.1)) ∧
    (∀ (s d : String), extractDate s = some d →
      ∃ u v, u ++ d.data ++ v = trimJS (collapseWS s.data)) := by
  refine ⟨by decide, ?_, ?_, ?_⟩
  · intro s t h
    have hc : trimJS (collapseWS s.data) = trimJS (collapseWS t.data) := by rw [h]
    simp only [extractDate, extractDateL]
    rw [hc]
  · intro s r h
    simp only [extractDate, extractDateL, h]
    rfl
  · intro s d h
    simp only [extractDate] at h
    rcases hmap : extractDateL s.data with _ | r
    · rw [hmap] at h
      exact absurd h (by simp)
    · rw [hmap] at h
      have h3 : some (String.mk r) = some d := h
      obtain rfl : String.mk r = d := Option.some.inj h3
      exact extractDateL_substring s.data r hmap

/-- Witness for C5: the whitespace-collapse conjunct applied to two concrete
strings differing only in whitespace runs. -/
theorem c5_extract_date_witness :
    extractDate ("From 2024-03-14 onward") = extractDate ("From  2024-03-14   onward") :=
  c5_extract_date.2.1 ("From 2024-03-14 onward") ("From  2024-03-14   onward")
    (by decide)

/-- C6: in the labeled phase of total extraction the patterns run from most to
least specific and the first whose captured number parses strictly positive
wins (shown for the most specific pattern), a comma decimal separator becomes
a period before returning, a successful labeled phase decides the result, and
"Subtotal $10.00 Tax $1.00 Grand Total: $11.00" yields "11.00". -/
theorem c6_labeled_total :
    extractTotal ("Subtotal $10.00 Tax $1.00 Grand Total: $11.00") = some ("11.00") ∧
    (∀ (s : String) v, labeledTotal (trimJS (collapseWS s.data)) = some v →
      extractTotal s = some (String.mk v)) ∧
    (∀ (s : List Char) cap, capScan totalPat1pre numFracReq mEps s = some cap →
      0 < parseCents (replaceFirstComma cap) →
      labeledTotal s = some (replaceFirstComma cap)) ∧
    extractTotal ("Total: 5,50") = some ("5.50") := by
  refine ⟨by decide, ?_, ?_, by decide⟩
  · intro s v h
    simp only [extractTotal, extractTotalL, h]
    rfl
  · intro s cap h hpos
    simp only [labeledTotal, labeledTotalPats, tryLabeledTotal, h]
    rw [if_pos hpos]

/-- Witness for C6: the labeled-phase conjunct applied at a concrete input. -/
theorem c6_labeled_total_witness :
    extractTotal ("Amount due: 7.77") = some (String.mk ("7.77".data)) :=
  c6_labeled_total.2.1 ("Amount due: 7.77") ("7.77".data) (by decide)

/-- C7: when no labeled total matches, extraction falls back to the
currency-prefixed amounts: the result is exactly the fallback value, the
fallback is unset exactly when no positive amount below 100000 (ten million
hundredths) remains, a returned fallback value is a collected candidate of
maximal amount among those below the bound, and
"$250000.00 $42.00" yields "42.00" (the 250000.00 being discarded). -/
theorem c7_fallback_total :
    extractTotal ("$250000.00 $42.00") = some ("42.00") ∧
    (∀ s : String, labeledTotal (trimJS (collapseWS s.data)) = none →
      extractTotal s = (fallbackTotal (trimJS (collapseWS s.data))).map
        (fun l => String.mk l)) ∧
    (∀ clean : List Char, fallbackTotal clean = none ↔
      (fallbackAmounts clean).filter (fun a => a.2 < 10000000) = []) ∧
    (∀ (clean : List Char) v, fallbackTotal clean = some v →
      ∃ c ∈ (fallbackAmounts clean).filter (fun a => a.2 < 10000000), c.1 = v ∧
        ∀ c' ∈ (fallbackAmounts clean).filter (fun a => a.2 < 10000000),
          c'.2 ≤ c.2) := by
  refine ⟨by decide, ?_, ?_, ?_⟩
  · intro s h
    simp only [extractTotal, extractTotalL, h]
  · intro clean
    constructor
    · intro h
      simp only [fallbackTotal] at h
      rcases hh : ((sortByDesc (fun a => a.2) (fallbackAmounts clean)).filter
          (fun a => a.2 < 10000000)).head? with _ | c
      · rw [List.head?_eq_none_iff, filter_sortByDesc] at hh
        exact sortByDesc_eq_nil _ hh
      · rw [hh] at h
        exact absurd h (by simp)
    · intro h
      simp only [fallbackTotal]
      rw [filter_sortByDesc, h]
      rfl
  · intro clean v h
    simp only [fallbackTotal] at h
    rcases hh : (((sortByDesc (fun a => a.2) (fallbackAmounts clean)).filter
        (fun a => a.2 < 10000000)).head?) with _ | c
    · rw [hh] at h
      exact absurd h (by simp)
    · rw [hh] at h
      have hcv : c.1 = v := by
        have h3 : some c.1 = some v := h
        exact Option.some.inj h3
      rw [filter_sortByDesc] at hh
      obtain ⟨l₁, l₂, hsplit, _, hmax⟩ := sortByDesc_head_spec _ _ c hh
      refine ⟨c, ?_, hcv, ?_⟩
      · rw [hsplit]
        exact List.mem_append_right _ (List.mem_cons_self c l₂)
      · intro c' hc'
        exact hmax c' hc'

/-- Witness for C7: the no-label conjunct applied at a concrete input. -/
theorem c7_fallback_total_witness :
    extractTotal ("$3.00 fee $8.00") =
      (fallbackTotal (trimJS (collapseWS ("$3.00 fee $8.00").data))).map
        (fun l => String.mk l) :=
  c7_fallback_total.2.1 ("$3.00 fee $8.00") (by decide)

/-- C10: with no standalone total label present, the word Subtotal still feeds
the labeled phase because the keyword patterns carry no word boundaries — the
"total" inside "Subtotal" matches, so "Subtotal: $10.00" yields "10.00" from
the labeled phase itself. -/
theorem c10_label_substring_match :
    extractTotal ("Subtotal: $10.00") = some ("10.00") ∧
    labeledTotal (trimJS (collapseWS ("Subtotal: $10.00").data)) =
      some ("10.00".data) := by
  constructor <;> decide

/-- C8 counterexample: the labeled merchant phase is pattern-major, not
line-major — with "Sold by: Riverside Cafe" on the first line and
"Company: Acme Ltd" on the second, extraction returns "Acme Ltd" (the
single-word-label pattern is tried over all lines before the phrase
pattern), not the first matching line "Riverside Cafe". -/
theorem c8_counterexample :
    extractMerchant ("Sold by: Riverside Cafe\nCompany: Acme Ltd") = some ("Acme Ltd") ∧
    extractMerchant ("Sold by: Riverside Cafe\nCompany: Acme Ltd") ≠
      some ("Riverside Cafe") := by
  constructor <;> decide

/-- C8 (amended): the labeled phase scans pattern-major — every line is tried
against the single-word labels (merchant, vendor, store, business, retailer,
seller, company) first, in line order, and only if none matches are the lines
rescanned for the phrase labels (invoice from, receipt from, sold by); within
a pattern the first matching line wins with its trimmed capture of length >
2; so "Sold by: Riverside Cafe" wins only when no line matches a single-word
label, as in the concrete text below. -/
theorem c8_labeled_merchant_pattern_major :
    (∀ (s : String) v, firstLineCapture merchantLabel1 (linesOf s.data) = some v →
      extractMerchant s = some (String.mk v)) ∧
    (∀ (s : String) v, firstLineCapture merchantLabel1 (linesOf s.data) = none →
      firstLineCapture merchantLabel2 (linesOf s.data) = some v →
      extractMerchant s = some (String.mk v)) ∧
    extractMerchant ("Items here okay\nSold by: Riverside Cafe") =
      some ("Riverside Cafe") := by
  refine ⟨?_, ?_, by decide⟩
  · intro s v h
    simp only [extractMerchant, extractMerchantL, labeledMerchant, h]
    rfl
  · intro s v h1 h2
    simp only [extractMerchant, extractMerchantL, labeledMerchant, h1, h2]
    rfl

/-- Witness for the amended C8: the phrase-label conjunct at a concrete text
with no single-word label anywhere. -/
theorem c8_labeled_merchant_pattern_major_witness :
    extractMerchant ("Receipt from: Corner Deli") = some (String.mk ("Corner Deli".data)) :=
  c8_labeled_merchant_pattern_major.2.1 ("Receipt from: Corner Deli")
    ("Corner Deli".data) (by decide) (by decide)

/-- C9: the header fallback of merchant extraction scores the surviving lines
(+4 all-caps, +3 title case, +2 length > 7, +1 length < 30, -3 for a 3+ digit
run) and returns the highest-scoring line, earliest first on ties (stable
sort), unset when no candidate remains; the all-caps first line of
"ACME HARDWARE\n123 Main Street\n03/14/2024" wins while the address and date
lines are discarded. -/
theorem c9_merchant_header_scan :
    extractMerchant ("ACME HARDWARE\n123 Main Street\n03/14/2024") =
      some ("ACME HARDWARE") ∧
    (∀ s : String, labeledMerchant (linesOf s.data) = none →
      extractMerchant s = (fallbackMerchant (linesOf s.data)).map
        (fun l => String.mk l)) ∧
    (∀ lines : List (List Char), merchantCandidates lines = [] →
      fallbackMerchant lines = none) ∧
    (∀ (lines : List (List Char)) v, fallbackMerchant lines = some v →
      ∃ l₁ l₂, merchantCandidates lines = l₁ ++ v :: l₂ ∧
        (∀ x ∈ l₁, merchantScore x < merchantScore v) ∧
        ∀ x ∈ merchantCandidates lines, merchantScore x ≤ merchantScore v) := by
  refine ⟨by decide, ?_, ?_, ?_⟩
  · intro s h
    simp only [extractMerchant, extractMerchantL, h]
  · intro lines h
    simp only [fallbackMerchant, h]
    rfl
  · intro lines v h
    exact sortByDesc_head_spec merchantScore (merchantCandidates lines) v h

/-- Witness for C9: the fallback conjunct at a concrete unlabeled text. -/
theorem c9_merchant_header_scan_witness :
    extractMerchant ("ACME HARDWARE\n123 Main Street") =
      (fallbackMerchant (linesOf ("ACME HARDWARE\n123 Main Street").data)).map
        (fun l => String.mk l) :=
  c9_merchant_header_scan.2.1 ("ACME HARDWARE\n123 Main Street") (by decide)
